import Mathlib

set_option autoImplicit false

/-!
Verification of the statistical persona-response engine of the elio-discord-bot
repository (ai-service).  Python floats are modelled by exact rationals, Python
dicts by association lists or finitely-modified functions, and every use of the
global random source is modelled by an explicit draw passed as an argument.
-/

/-- Python str.lower, modelled characterwise so that it evaluates in the kernel. -/
def pyLower (s : String) : String :=
  String.mk (s.data.map Char.toLower)

/-- Helper for pyWords: accumulate the current word while scanning the text. -/
def wordsAux : List Char → List Char → List String
  | [], acc => if acc = [] then [] else [String.mk acc.reverse]
  | c :: cs, acc =>
      if c.isWhitespace then
        (if acc = [] then [] else [String.mk acc.reverse]) ++ wordsAux cs []
      else wordsAux cs (c :: acc)

/-- Python str.split with no argument: split on whitespace runs, dropping empties. -/
def pyWords (s : String) : List String :=
  wordsAux s.data []

/-- Python str.strip: drop leading and trailing whitespace. -/
def pyStrip (s : String) : String :=
  String.mk (((s.data.dropWhile Char.isWhitespace).reverse.dropWhile Char.isWhitespace).reverse)

/-- Tokenization used by the BM25 and n-gram engines: lowercase whitespace words. -/
def pyTokenize (s : String) : List String :=
  (pyWords s).map pyLower

/-- Python list slice l[-k:].  For k = 0 Python returns the whole list. -/
def pySliceLast {α : Type} (k : ℕ) (l : List α) : List α :=
  if k = 0 then l else l.drop (l.length - k)

/-- Substring containment over char lists, mirroring the Python test pat in s. -/
def listContainsSub (t pat : List Char) : Bool :=
  (List.range (t.length + 1)).any (fun i => pat.isPrefixOf (t.drop i))

/-- Substring containment on strings, mirroring the Python expression pat in s. -/
def strContains (s pat : String) : Bool :=
  listContainsSub s.data pat.data

/-- random.choice from a list, modelled by an explicit index draw (mod length). -/
def pyChoice (l : List String) (k : ℕ) : String :=
  ((l.get? (k % l.length)).getD "")

namespace ThompsonSamplingBandit

/-- The arms table of bandit.py: a Python dict mapping arm names to their
Beta parameters, modelled as a finitely-modified function. -/
def Arms : Type := String → Option (ℚ × ℚ)

/-- Constructor of ThompsonSamplingBandit: every listed arm gets the priors. -/
def init (names : List String) (priorAlpha priorBeta : ℚ) : Arms :=
  fun s => if s ∈ names then some (priorAlpha, priorBeta) else none

/-- ThompsonSamplingBandit.update: unknown arms are ignored, the reward is
clamped to the unit interval, then alpha += reward when reward >= 0.5 and
otherwise beta += (1 - reward). -/
def update (arms : Arms) (arm : String) (reward : ℚ) : Arms :=
  match arms arm with
  | none => arms
  | some p =>
      let r := max 0 (min 1 reward)
      fun x => if x = arm then
          (if 1/2 ≤ r then some (p.1 + r, p.2) else some (p.1, p.2 + (1 - r)))
        else arms x

/-- ThompsonSamplingBandit.get_weight: the Beta mean, 0.5 for unknown arms. -/
def get_weight (arms : Arms) (arm : String) : ℚ :=
  match arms arm with
  | none => 1/2
  | some p => p.1 / (p.1 + p.2)

/-- A finite sequence of update calls applied in order. -/
def applyUpdates (arms : Arms) (us : List (String × ℚ)) : Arms :=
  us.foldl (fun st p => update st p.1 p.2) arms

/-- Invariant: every stored arm has alpha and beta at least 1. -/
def GoodArms (arms : Arms) : Prop :=
  ∀ s a b, arms s = some (a, b) → 1 ≤ a ∧ 1 ≤ b

theorem update_ne (arms : Arms) (arm : String) (reward : ℚ) (x : String)
    (hx : x ≠ arm) : update arms arm reward x = arms x := by
  unfold update
  cases h : arms arm with
  | none => rfl
  | some p => simp [hx]

theorem clamp_eq_self {r : ℚ} (h0 : 0 ≤ r) (h1 : r ≤ 1) :
    max 0 (min 1 r) = r := by
  rw [min_eq_right h1, max_eq_right h0]

theorem update_good {arms : Arms} (h : GoodArms arms) (arm : String) (reward : ℚ) :
    GoodArms (update arms arm reward) := by
  intro s a b hs
  cases harm : arms arm with
  | none =>
      simp only [update, harm] at hs
      exact h s a b hs
  | some p =>
      simp only [update, harm] at hs
      by_cases hsx : s = arm
      · subst hsx
        rw [if_pos rfl] at hs
        have hr0 : (0:ℚ) ≤ max 0 (min 1 reward) := le_max_left 0 _
        have hr1 : max 0 (min 1 reward) ≤ 1 :=
          max_le (by norm_num) (min_le_left 1 reward)
        have hp := h s p.1 p.2 (by simpa using harm)
        by_cases hb : (1:ℚ)/2 ≤ max 0 (min 1 reward)
        · rw [if_pos hb, Option.some.injEq, Prod.mk.injEq] at hs
          obtain ⟨h1, h2⟩ := hs
          constructor
          · rw [← h1]; linarith [hp.1, hr0]
          · rw [← h2]; exact hp.2
        · rw [if_neg hb, Option.some.injEq, Prod.mk.injEq] at hs
          obtain ⟨h1, h2⟩ := hs
          constructor
          · rw [← h1]; exact hp.1
          · rw [← h2]; linarith [hp.2, hr1]
      · rw [if_neg hsx] at hs
        exact h s a b hs

theorem applyUpdates_good {arms : Arms} (h : GoodArms arms) (us : List (String × ℚ)) :
    GoodArms (applyUpdates arms us) := by
  induction us generalizing arms with
  | nil => exact h
  | cons u rest ih => exact ih (update_good h u.1 u.2)

theorem init_good (names : List String) : GoodArms (init names 1 1) := by
  intro s a b hs
  unfold init at hs
  by_cases hmem : s ∈ names
  · rw [if_pos hmem, Option.some.injEq, Prod.mk.injEq] at hs
    obtain ⟨h1, h2⟩ := hs
    exact ⟨le_of_eq h1, le_of_eq h2⟩
  · rw [if_neg hmem] at hs
    exact absurd hs (by simp)

theorem get_weight_bounds {arms : Arms} (h : GoodArms arms) (arm : String) :
    0 < get_weight arms arm ∧ get_weight arms arm < 1 := by
  unfold get_weight
  cases harm : arms arm with
  | none => norm_num
  | some p =>
      obtain ⟨ha, hb⟩ := h arm p.1 p.2 harm
      have hsum : (0:ℚ) < p.1 + p.2 := by linarith
      constructor
      · exact div_pos (by linarith) hsum
      · rw [div_lt_one hsum]; linarith

theorem update_self_one {arms : Arms} {arm : String} {a b : ℚ}
    (h : arms arm = some (a, b)) : update arms arm 1 arm = some (a + 1, b) := by
  unfold update
  rw [h]
  norm_num

theorem update_self_zero {arms : Arms} {arm : String} {a b : ℚ}
    (h : arms arm = some (a, b)) : update arms arm 0 arm = some (a, b + 1) := by
  unfold update
  rw [h]
  norm_num

theorem applyUpdates_replicate_one (arm : String) :
    ∀ (n : ℕ) (arms : Arms) (a b : ℚ), arms arm = some (a, b) →
    applyUpdates arms (List.replicate n (arm, (1:ℚ))) arm = some (a + n, b) := by
  intro n
  induction n with
  | zero => intro arms a b h; simpa [applyUpdates] using h
  | succ m ih =>
      intro arms a b h
      have step : update arms arm 1 arm = some (a + 1, b) := update_self_one h
      have := ih (update arms arm 1) (a + 1) b step
      simp only [List.replicate_succ, applyUpdates, List.foldl_cons] at *
      rw [this]
      congr 2
      push_cast
      ring

theorem applyUpdates_replicate_zero (arm : String) :
    ∀ (n : ℕ) (arms : Arms) (a b : ℚ), arms arm = some (a, b) →
    applyUpdates arms (List.replicate n (arm, (0:ℚ))) arm = some (a, b + n) := by
  intro n
  induction n with
  | zero => intro arms a b h; simpa [applyUpdates] using h
  | succ m ih =>
      intro arms a b h
      have step : update arms arm 0 arm = some (a, b + 1) := update_self_zero h
      have := ih (update arms arm 0) a (b + 1) step
      simp only [List.replicate_succ, applyUpdates, List.foldl_cons] at *
      rw [this]
      congr 2
      push_cast
      ring

theorem applyUpdates_ne (x : String) :
    ∀ (us : List (String × ℚ)) (arms : Arms), (∀ u ∈ us, u.1 ≠ x) →
    applyUpdates arms us x = arms x := by
  intro us
  induction us with
  | nil => intro arms _; rfl
  | cons u rest ih =>
      intro arms h
      simp only [applyUpdates, List.foldl_cons]
      have h1 : update arms u.1 u.2 x = arms x :=
        update_ne arms u.1 u.2 x (Ne.symm (h u (List.mem_cons_self u rest)))
      rw [show (List.foldl (fun st p => update st p.1 p.2) (update arms u.1 u.2) rest)
            = applyUpdates (update arms u.1 u.2) rest from rfl]
      rw [ih (update arms u.1 u.2) (fun v hv => h v (List.mem_cons_of_mem u hv))]
      exact h1

/-- C2: for an arm present in the bandit and a reward in the unit interval,
update adds exactly the reward to alpha when reward >= 0.5 and otherwise adds
exactly (1 - reward) to beta, leaving the other parameter and all other arms
unchanged. -/
theorem C2_bandit_update_rule (arms : Arms) (arm : String) (reward a b : ℚ)
    (hmem : arms arm = some (a, b)) (h0 : 0 ≤ reward) (h1 : reward ≤ 1) :
    (1/2 ≤ reward → update arms arm reward arm = some (a + reward, b))
  ∧ (reward < 1/2 → update arms arm reward arm = some (a, b + (1 - reward)))
  ∧ (∀ x, x ≠ arm → update arms arm reward x = arms x) := by
  have hc : max 0 (min 1 reward) = reward := clamp_eq_self h0 h1
  refine ⟨?_, ?_, fun x hx => update_ne arms arm reward x hx⟩
  · intro hge
    simp only [update, hmem, hc]
    simp only [if_true, eq_self_iff_true]
    rw [if_pos hge]
  · intro hlt
    simp only [update, hmem, hc]
    simp only [if_true, eq_self_iff_true]
    rw [if_neg (not_le.mpr hlt)]

theorem C2_bandit_update_rule_witness :
    ((0:ℚ) ≤ 7/10 ∧ (7:ℚ)/10 ≤ 1) ∧
    update (init ["x"] 1 1) "x" (7/10) "x" = some (1 + 7/10, 1) := by
  refine ⟨⟨by norm_num, by norm_num⟩, ?_⟩
  have h := C2_bandit_update_rule (init ["x"] 1 1) "x" (7/10) 1 1
    (by simp [init]) (by norm_num) (by norm_num)
  exact h.1 (by norm_num)

/-- C9: updating an arm name that is not present in the bandit is a silent
no-op and get_weight of an unknown arm is exactly 0.5. -/
theorem C9_bandit_unknown_arm (arms : Arms) (arm : String) (reward : ℚ)
    (h : arms arm = none) :
    update arms arm reward = arms ∧ get_weight arms arm = 1/2 := by
  constructor
  · unfold update; rw [h]
  · unfold get_weight; rw [h]

theorem C9_bandit_unknown_arm_witness :
    (init ["a"] 1 1) "zzz" = none ∧
    update (init ["a"] 1 1) "zzz" (3/4) = init ["a"] 1 1 ∧
    get_weight (init ["a"] 1 1) "zzz" = 1/2 := by
  have hz : (init ["a"] 1 1) "zzz" = none := by simp [init]
  have h := C9_bandit_unknown_arm (init ["a"] 1 1) "zzz" (3/4) hz
  exact ⟨hz, h.1, h.2⟩

/-- C4: starting from the uniform priors, the Beta-mean weight is strictly
between 0 and 1 after any finite update sequence, it is a deterministic
function of the update sequence, and after 100 reward-1 updates to one arm and
100 reward-0 updates to another the weights pass 0.7 from above and 0.3 from
below respectively. -/
theorem C4_bandit_weight_bounds_and_convergence :
    (∀ (names : List String) (us : List (String × ℚ)) (arm : String),
        0 < get_weight (applyUpdates (init names 1 1) us) arm
      ∧ get_weight (applyUpdates (init names 1 1) us) arm < 1)
  ∧ (∀ (names : List String) (us1 us2 : List (String × ℚ)) (arm : String),
        us1 = us2 →
        get_weight (applyUpdates (init names 1 1) us1) arm
          = get_weight (applyUpdates (init names 1 1) us2) arm)
  ∧ (7/10 < get_weight (applyUpdates (init ["strategy_a", "strategy_b"] 1 1)
        (List.replicate 100 ("strategy_a", (1:ℚ)) ++ List.replicate 100 ("strategy_b", (0:ℚ))))
        "strategy_a"
    ∧ get_weight (applyUpdates (init ["strategy_a", "strategy_b"] 1 1)
        (List.replicate 100 ("strategy_a", (1:ℚ)) ++ List.replicate 100 ("strategy_b", (0:ℚ))))
        "strategy_b" < 3/10) := by
  have hsplit : ∀ (arms : Arms) (l1 l2 : List (String × ℚ)),
      applyUpdates arms (l1 ++ l2) = applyUpdates (applyUpdates arms l1) l2 := by
    intro arms l1 l2
    simp [applyUpdates, List.foldl_append]
  refine ⟨?_, ?_, ?_, ?_⟩
  · intro names us arm
    exact get_weight_bounds (applyUpdates_good (init_good names) us) arm
  · intro names us1 us2 arm h
    rw [h]
  · rw [hsplit]
    have ha0 : (init ["strategy_a", "strategy_b"] 1 1) "strategy_a" = some (1, 1) := by
      simp [init]
    have ha1 : applyUpdates (init ["strategy_a", "strategy_b"] 1 1)
        (List.replicate 100 ("strategy_a", (1:ℚ))) "strategy_a" = some (101, 1) := by
      have := applyUpdates_replicate_one "strategy_a" 100
        (init ["strategy_a", "strategy_b"] 1 1) 1 1 ha0
      rw [this]
      norm_num
    have ha2 : applyUpdates (applyUpdates (init ["strategy_a", "strategy_b"] 1 1)
        (List.replicate 100 ("strategy_a", (1:ℚ))))
        (List.replicate 100 ("strategy_b", (0:ℚ))) "strategy_a" = some (101, 1) := by
      rw [applyUpdates_ne "strategy_a" _ _ ?_]
      · exact ha1
      · intro u hu
        rw [List.eq_of_mem_replicate hu]
        decide
    rw [get_weight, ha2]
    norm_num
  · rw [hsplit]
    have hb0 : (init ["strategy_a", "strategy_b"] 1 1) "strategy_b" = some (1, 1) := by
      simp [init]
    have hb1 : applyUpdates (init ["strategy_a", "strategy_b"] 1 1)
        (List.replicate 100 ("strategy_a", (1:ℚ))) "strategy_b" = some (1, 1) := by
      rw [applyUpdates_ne "strategy_b" _ _ ?_]
      · exact hb0
      · intro u hu
        rw [List.eq_of_mem_replicate hu]
        decide
    have hb2 : applyUpdates (applyUpdates (init ["strategy_a", "strategy_b"] 1 1)
        (List.replicate 100 ("strategy_a", (1:ℚ))))
        (List.replicate 100 ("strategy_b", (0:ℚ))) "strategy_b" = some (1, 101) := by
      have := applyUpdates_replicate_zero "strategy_b" 100
        (applyUpdates (init ["strategy_a", "strategy_b"] 1 1)
          (List.replicate 100 ("strategy_a", (1:ℚ)))) 1 1 hb1
      rw [this]
      norm_num
    rw [get_weight, hb2]
    norm_num

theorem C4_bandit_weight_bounds_and_convergence_witness :
    (([("a", (1:ℚ))] : List (String × ℚ)) = [("a", (1:ℚ))]) ∧
    get_weight (applyUpdates (init ["a"] 1 1) [("a", (1:ℚ))]) "a"
      = get_weight (applyUpdates (init ["a"] 1 1) [("a", (1:ℚ))]) "a" :=
  ⟨rfl, C4_bandit_weight_bounds_and_convergence.2.1 ["a"] [("a", 1)] [("a", 1)] "a" rfl⟩

end ThompsonSamplingBandit

namespace TrieModel

/-- A node of trie.py: children dict, end-of-word flag, payload, insert count. -/
inductive TrieNode (α : Type) : Type where
  | mk (children : List (Char × TrieNode α)) (is_end : Bool) (data : Option α) (count : ℕ)

def TrieNode.children {α : Type} : TrieNode α → List (Char × TrieNode α)
  | .mk c _ _ _ => c

def TrieNode.is_end {α : Type} : TrieNode α → Bool
  | .mk _ e _ _ => e

def TrieNode.data {α : Type} : TrieNode α → Option α
  | .mk _ _ d _ => d

def TrieNode.count {α : Type} : TrieNode α → ℕ
  | .mk _ _ _ n => n

/-- Lookup in a children dict (association list keyed by characters). -/
def alLookup {β : Type} (l : List (Char × β)) (c : Char) : Option β :=
  (l.find? (fun p => p.1 == c)).map Prod.snd

/-- Python dict assignment: replace in place when the key exists, else append. -/
def alSet {β : Type} (l : List (Char × β)) (c : Char) (v : β) : List (Char × β) :=
  if l.any (fun p => p.1 == c) then l.map (fun p => if p.1 == c then (c, v) else p)
  else l ++ [(c, v)]

/-- Python del on a dict key. -/
def alErase {β : Type} (l : List (Char × β)) (c : Char) : List (Char × β) :=
  l.filter (fun p => !(p.1 == c))


theorem alLookup_cons {β : Type} (q : Char × β) (rest : List (Char × β)) (d : Char) :
    alLookup (q :: rest) d = if q.1 = d then some q.2 else alLookup rest d := by
  by_cases h : q.1 = d
  · simp [alLookup, List.find?, h]
  · simp [alLookup, List.find?, beq_eq_false_iff_ne.mpr h, h]

theorem alSet_cons_ne {β : Type} {q : Char × β} {rest : List (Char × β)} {c : Char}
    (v : β) (hq : q.1 ≠ c) : alSet (q :: rest) c v = q :: alSet rest c v := by
  have hq2 : (q.1 == c) = false := beq_eq_false_iff_ne.mpr hq
  unfold alSet
  by_cases hany : rest.any (fun p => p.1 == c)
  · rw [if_pos (by simp [List.any_cons, hany]), if_pos hany]
    simp only [List.map_cons, hq2, Bool.false_eq_true, if_false]
  · rw [if_neg (by simp [List.any_cons, hany, hq2]), if_neg hany]
    simp

theorem alSet_cons_eq {β : Type} {q : Char × β} {rest : List (Char × β)} {c : Char}
    (v : β) (hq : q.1 = c) :
    alSet (q :: rest) c v
      = (c, v) :: rest.map (fun p => if p.1 == c then (c, v) else p) := by
  have hq2 : (q.1 == c) = true := beq_iff_eq.mpr hq
  unfold alSet
  rw [if_pos (by simp [List.any_cons, hq2])]
  simp only [List.map_cons, hq2, if_true]

theorem alLookup_map_update_ne {β : Type} (l : List (Char × β)) (c d : Char) (v : β)
    (hdc : d ≠ c) :
    alLookup (l.map (fun p => if p.1 == c then (c, v) else p)) d = alLookup l d := by
  induction l with
  | nil => rfl
  | cons q rest ih =>
      by_cases hq : q.1 = c
      · have hq2 : (q.1 == c) = true := beq_iff_eq.mpr hq
        simp only [List.map_cons, hq2, if_true]
        rw [alLookup_cons, alLookup_cons]
        rw [if_neg (fun h => hdc h.symm), if_neg (by rw [hq]; exact fun h => hdc h.symm)]
        exact ih
      · have hq2 : (q.1 == c) = false := beq_eq_false_iff_ne.mpr hq
        simp only [List.map_cons, hq2, Bool.false_eq_true, if_false]
        rw [alLookup_cons, alLookup_cons]
        by_cases hqd : q.1 = d
        · rw [if_pos hqd, if_pos hqd]
        · rw [if_neg hqd, if_neg hqd]
          exact ih

theorem alLookup_set_self {β : Type} (l : List (Char × β)) (c : Char) (v : β) :
    alLookup (alSet l c v) c = some v := by
  induction l with
  | nil =>
      simp [alSet, alLookup, List.find?]
  | cons q rest ih =>
      by_cases hq : q.1 = c
      · rw [alSet_cons_eq v hq, alLookup_cons, if_pos rfl]
      · rw [alSet_cons_ne v hq, alLookup_cons, if_neg hq]
        exact ih

theorem alLookup_set_ne {β : Type} (l : List (Char × β)) (c d : Char) (v : β)
    (hdc : d ≠ c) : alLookup (alSet l c v) d = alLookup l d := by
  induction l with
  | nil =>
      simp [alSet, alLookup, List.find?, beq_eq_false_iff_ne.mpr (fun h => hdc h.symm)]
  | cons q rest ih =>
      by_cases hq : q.1 = c
      · rw [alSet_cons_eq v hq, alLookup_cons, alLookup_cons]
        rw [if_neg (fun h => hdc h.symm), if_neg (by rw [hq]; exact fun h => hdc h.symm)]
        exact alLookup_map_update_ne rest c d v hdc
      · rw [alSet_cons_ne v hq, alLookup_cons, alLookup_cons]
        by_cases hqd : q.1 = d
        · rw [if_pos hqd, if_pos hqd]
        · rw [if_neg hqd, if_neg hqd]
          exact ih

theorem alErase_cons {β : Type} (q : Char × β) (rest : List (Char × β)) (c : Char) :
    alErase (q :: rest) c
      = if q.1 = c then alErase rest c else q :: alErase rest c := by
  by_cases hq : q.1 = c
  · simp [alErase, List.filter, beq_iff_eq.mpr hq, hq]
  · simp [alErase, List.filter, beq_eq_false_iff_ne.mpr hq, hq]

theorem alLookup_erase_self {β : Type} (l : List (Char × β)) (c : Char) :
    alLookup (alErase l c) c = none := by
  induction l with
  | nil => rfl
  | cons q rest ih =>
      rw [alErase_cons]
      by_cases hq : q.1 = c
      · rw [if_pos hq]; exact ih
      · rw [if_neg hq, alLookup_cons, if_neg hq]; exact ih

theorem alLookup_erase_ne {β : Type} (l : List (Char × β)) (c d : Char)
    (hdc : d ≠ c) : alLookup (alErase l c) d = alLookup l d := by
  induction l with
  | nil => rfl
  | cons q rest ih =>
      rw [alErase_cons]
      by_cases hq : q.1 = c
      · rw [if_pos hq, alLookup_cons, if_neg (by rw [hq]; exact fun h => hdc h.symm)]
        exact ih
      · rw [if_neg hq, alLookup_cons, alLookup_cons]
        by_cases hqd : q.1 = d
        · rw [if_pos hqd, if_pos hqd]
        · rw [if_neg hqd, if_neg hqd]
          exact ih

/-- A fresh TrieNode(): empty children, not a word end. -/
def emptyNode {α : Type} : TrieNode α := .mk [] false none 0

def lookupChild {α : Type} (n : TrieNode α) (c : Char) : Option (TrieNode α) :=
  alLookup n.children c

def setChild {α : Type} (n : TrieNode α) (c : Char) (child : TrieNode α) : TrieNode α :=
  .mk (alSet n.children c child) n.is_end n.data n.count

def removeChild {α : Type} (n : TrieNode α) (c : Char) : TrieNode α :=
  .mk (alErase n.children c) n.is_end n.data n.count

/-- The node mutation done by Trie.delete at the end of the word:
is_end = False, count = 0, data = None. -/
def clearEnd {α : Type} (n : TrieNode α) : TrieNode α :=
  .mk n.children false none 0

/-- Trie.insert walking from a node: create missing children along the word,
then mark the final node (is_end, count += 1, data overwritten). -/
def insertAux {α : Type} : TrieNode α → List Char → Option α → TrieNode α
  | n, [], dat => .mk n.children true dat (n.count + 1)
  | n, c :: rest, dat =>
      setChild n c (insertAux ((lookupChild n c).getD emptyNode) rest dat)

/-- Trie._find_node walking from a node. -/
def findNodeAux {α : Type} : TrieNode α → List Char → Option (TrieNode α)
  | n, [] => some n
  | n, c :: rest =>
      match lookupChild n c with
      | none => none
      | some child => findNodeAux child rest

/-- Trie.search from a node: the word must reach a node flagged is_end. -/
def searchAux {α : Type} (n : TrieNode α) (w : List Char) : Bool :=
  match findNodeAux n w with
  | none => false
  | some m => m.is_end

/-- Trie._delete: returns the rewritten node and the should-delete flag the
recursion reports to the parent. -/
def deleteAux {α : Type} : TrieNode α → List Char → TrieNode α × Bool
  | n, [] =>
      if n.is_end then
        let n2 := clearEnd n
        (n2, n2.children.isEmpty)
      else (n, false)
  | n, c :: rest =>
      match lookupChild n c with
      | none => (n, false)
      | some child =>
          let res := deleteAux child rest
          if res.2 then
            let n2 := removeChild n c
            (n2, n2.children.isEmpty && !n.is_end)
          else (setChild n c res.1, false)

theorem children_setChild {α : Type} (n : TrieNode α) (c : Char) (x : TrieNode α) :
    (setChild n c x).children = alSet n.children c x := by
  cases n; rfl

theorem is_end_setChild {α : Type} (n : TrieNode α) (c : Char) (x : TrieNode α) :
    (setChild n c x).is_end = n.is_end := by
  cases n; rfl

theorem is_end_removeChild {α : Type} (n : TrieNode α) (c : Char) :
    (removeChild n c).is_end = n.is_end := by
  cases n; rfl

theorem lookupChild_setChild_self {α : Type} (n : TrieNode α) (c : Char) (x : TrieNode α) :
    lookupChild (setChild n c x) c = some x := by
  cases n
  exact alLookup_set_self _ c x

theorem lookupChild_setChild_ne {α : Type} (n : TrieNode α) (c d : Char) (x : TrieNode α)
    (hdc : d ≠ c) : lookupChild (setChild n c x) d = lookupChild n d := by
  cases n
  exact alLookup_set_ne _ c d x hdc

theorem lookupChild_removeChild_self {α : Type} (n : TrieNode α) (c : Char) :
    lookupChild (removeChild n c) c = none := by
  cases n
  exact alLookup_erase_self _ c

theorem lookupChild_removeChild_ne {α : Type} (n : TrieNode α) (c d : Char)
    (hdc : d ≠ c) : lookupChild (removeChild n c) d = lookupChild n d := by
  cases n
  exact alLookup_erase_ne _ c d hdc

theorem searchAux_nil {α : Type} (n : TrieNode α) : searchAux n [] = n.is_end := rfl

theorem searchAux_cons_some {α : Type} {n m : TrieNode α} {c : Char} (rest : List Char)
    (h : lookupChild n c = some m) : searchAux n (c :: rest) = searchAux m rest := by
  simp [searchAux, findNodeAux, h]

theorem searchAux_cons_none {α : Type} {n : TrieNode α} {c : Char} (rest : List Char)
    (h : lookupChild n c = none) : searchAux n (c :: rest) = false := by
  simp [searchAux, findNodeAux, h]

theorem searchAux_congr_lookup {α : Type} {n1 n2 : TrieNode α} {c : Char} (rest : List Char)
    (h : lookupChild n1 c = lookupChild n2 c) :
    searchAux n1 (c :: rest) = searchAux n2 (c :: rest) := by
  cases h2 : lookupChild n2 c with
  | none => rw [searchAux_cons_none rest (h.trans h2), searchAux_cons_none rest h2]
  | some m => rw [searchAux_cons_some rest (h.trans h2), searchAux_cons_some rest h2]

theorem searchAux_barren {α : Type} {n : TrieNode α} (hch : n.children = [])
    (he : n.is_end = false) : ∀ v, searchAux n v = false := by
  intro v
  cases v with
  | nil => rw [searchAux_nil, he]
  | cons c rest =>
      apply searchAux_cons_none
      unfold lookupChild
      rw [hch]
      rfl

theorem searchAux_insertAux {α : Type} :
    ∀ (w : List Char) (n : TrieNode α) (dat : Option α),
      searchAux (insertAux n w dat) w = true := by
  intro w
  induction w with
  | nil =>
      intro n dat
      cases n
      rfl
  | cons c rest ih =>
      intro n dat
      rw [insertAux]
      rw [searchAux_cons_some rest (lookupChild_setChild_self n c _)]
      exact ih _ dat

theorem deleteAux_spec {α : Type} :
    ∀ (w : List Char) (n : TrieNode α),
      searchAux (deleteAux n w).1 w = false
    ∧ (∀ v, v ≠ w → searchAux (deleteAux n w).1 v = searchAux n v)
    ∧ ((deleteAux n w).2 = true →
        (deleteAux n w).1.children = [] ∧ (deleteAux n w).1.is_end = false) := by
  intro w
  induction w with
  | nil =>
      intro n
      by_cases he : n.is_end = true
      · have hd : deleteAux n [] = (clearEnd n, (clearEnd n).children.isEmpty) := by
          simp [deleteAux, he]
        rw [hd]
        refine ⟨?_, ?_, ?_⟩
        · cases n; rfl
        · intro v hv
          cases v with
          | nil => exact absurd rfl hv
          | cons d ds =>
              apply searchAux_congr_lookup
              cases n; rfl
        · intro hempty
          constructor
          · cases n with
            | mk ch e d k =>
                simpa [clearEnd, TrieNode.children, List.isEmpty_iff] using hempty
          · cases n; rfl
      · have hd : deleteAux n [] = (n, false) := by
          simp [deleteAux, he]
        rw [hd]
        refine ⟨?_, fun v _ => rfl, by simp⟩
        rw [searchAux_nil]
        simpa using he
  | cons c rest ih =>
      intro n
      cases hlc : lookupChild n c with
      | none =>
          have hd : deleteAux n (c :: rest) = (n, false) := by
            simp [deleteAux, hlc]
          rw [hd]
          refine ⟨?_, fun v _ => rfl, by simp⟩
          exact searchAux_cons_none rest hlc
      | some child =>
          obtain ⟨ih1, ih2, ih3⟩ := ih child
          by_cases hsd : (deleteAux child rest).2 = true
          · have hd : deleteAux n (c :: rest)
                = (removeChild n c, (removeChild n c).children.isEmpty && !n.is_end) := by
              simp [deleteAux, hlc, hsd]
            obtain ⟨hch, hce⟩ := ih3 hsd
            have hbarren : ∀ ds, ds ≠ rest → searchAux child ds = false := by
              intro ds hds
              rw [← ih2 ds hds]
              exact searchAux_barren hch hce ds
            rw [hd]
            refine ⟨?_, ?_, ?_⟩
            · exact searchAux_cons_none rest (lookupChild_removeChild_self n c)
            · intro v hv
              cases v with
              | nil =>
                  rw [searchAux_nil, searchAux_nil, is_end_removeChild]
              | cons d ds =>
                  by_cases hdc : d = c
                  · subst hdc
                    rw [searchAux_cons_none ds (lookupChild_removeChild_self n d),
                        searchAux_cons_some ds hlc]
                    exact (hbarren ds (fun h2 => hv (by rw [h2]))).symm
                  · exact searchAux_congr_lookup ds (lookupChild_removeChild_ne n c d hdc)
            · intro hflag
              rw [Bool.and_eq_true] at hflag
              refine ⟨List.isEmpty_iff.mp hflag.1, ?_⟩
              rw [is_end_removeChild]
              simpa using hflag.2
          · have hsd2 : (deleteAux child rest).2 = false := by
              cases h2 : (deleteAux child rest).2 with
              | true => exact absurd h2 hsd
              | false => rfl
            have hd : deleteAux n (c :: rest)
                = (setChild n c (deleteAux child rest).1, false) := by
              simp [deleteAux, hlc, hsd2]
            rw [hd]
            refine ⟨?_, ?_, by simp⟩
            · rw [searchAux_cons_some rest (lookupChild_setChild_self n c _)]
              exact ih1
            · intro v hv
              cases v with
              | nil =>
                  rw [searchAux_nil, searchAux_nil, is_end_setChild]
              | cons d ds =>
                  by_cases hdc : d = c
                  · subst hdc
                    rw [searchAux_cons_some ds (lookupChild_setChild_self n d _),
                        searchAux_cons_some ds hlc]
                    exact ih2 ds (fun h => hv (by rw [h]))
                  · exact searchAux_congr_lookup ds (lookupChild_setChild_ne n c d _ hdc)

/-- The inner while loop of Trie.find_all_matches: walk from the root along the
text suffix, recording a match every time an end node is passed. -/
def walkCollect {α : Type} : TrieNode α → List Char → List Char → ℕ → List (List Char × ℕ × Option α)
  | _, [], _, _ => []
  | node, c :: cs, acc, i =>
      match lookupChild node c with
      | none => []
      | some child =>
          (if child.is_end then [(acc ++ [c], i, child.data)] else [])
            ++ walkCollect child cs (acc ++ [c]) i

theorem walkCollect_mem {α : Type} :
    ∀ (w : List Char) (node : TrieNode α) (rest acc : List Char) (i : ℕ) (m : TrieNode α),
      w ≠ [] → w.isPrefixOf rest → findNodeAux node w = some m → m.is_end = true →
      (acc ++ w, i, m.data) ∈ walkCollect node rest acc i := by
  intro w
  induction w with
  | nil => intro node rest acc i m hne _ _ _; exact absurd rfl hne
  | cons c cs ih =>
      intro node rest acc i m _ hpre hfind hend
      cases rest with
      | nil => simp [List.isPrefixOf] at hpre
      | cons d rest2 =>
          have hcd : c = d ∧ cs.isPrefixOf rest2 := by
            simpa [List.isPrefixOf] using hpre
          obtain ⟨hcd1, hpre2⟩ := hcd
          subst hcd1
          cases hlc : lookupChild node c with
          | none => simp [findNodeAux, hlc] at hfind
          | some child =>
              have hfind2 : findNodeAux child cs = some m := by
                simpa [findNodeAux, hlc] using hfind
              simp only [walkCollect, hlc]
              cases cs with
              | nil =>
                  have hcm : child = m := by
                    simpa [findNodeAux] using hfind2
                  subst hcm
                  rw [hend]
                  apply List.mem_append_left
                  simp
              | cons e es =>
                  apply List.mem_append_right
                  have hmem := ih child rest2 (acc ++ [c]) i m (by simp) hpre2 hfind2 hend
                  simpa [List.append_assoc] using hmem

/-- The Trie class of trie.py: root node, case sensitivity flag, word count. -/
structure Trie (α : Type) : Type where
  root : TrieNode α
  case_sensitive : Bool
  word_count : ℕ

/-- Trie constructor: fresh root, zero words. -/
def Trie.empty (α : Type) (cs : Bool) : Trie α := ⟨emptyNode, cs, 0⟩

/-- Trie._normalize: lowercase unless case-sensitive. -/
def Trie.normalize {α : Type} (t : Trie α) (w : String) : String :=
  if t.case_sensitive then w else pyLower w

/-- Trie.insert: walk and create the path, set is_end and payload, and bump
word_count when the final node was not already a word end. -/
def Trie.insert {α : Type} (t : Trie α) (w : String) (dat : Option α) : Trie α :=
  let wn := (t.normalize w).data
  let wc := match findNodeAux t.root wn with
    | some m => if m.is_end then t.word_count else t.word_count + 1
    | none => t.word_count + 1
  { t with root := insertAux t.root wn dat, word_count := wc }

/-- Trie.search. -/
def Trie.search {α : Type} (t : Trie α) (w : String) : Bool :=
  searchAux t.root (t.normalize w).data

/-- Trie.delete: run the recursive _delete and adjust word_count the way the
source does (decrement, floored at zero, whenever the root collapsed or the
word no longer searches). -/
def Trie.delete {α : Type} (t : Trie α) (w : String) : Trie α :=
  let wn := (t.normalize w).data
  let res := deleteAux t.root wn
  let dec := res.2 || !(searchAux res.1 wn)
  { t with root := res.1, word_count := if dec then t.word_count - 1 else t.word_count }

/-- Trie.find_all_matches: for every start index scan forward through the
children, recording (word, start position, payload) at every end node. -/
def Trie.find_all_matches {α : Type} (t : Trie α) (text : String) : List (String × ℕ × Option α) :=
  let chars := (t.normalize text).data
  (((List.range chars.length).map (fun i => walkCollect t.root (chars.drop i) [] i)).flatten).map
    (fun m => (String.mk m.1, m.2.1, m.2.2))

/-- C7: insert makes the word searchable; delete makes exactly that word
unsearchable while every differently-normalized word keeps its search result;
and find_all_matches reports a stored word at the position where it occurs in
the normalized text. -/
theorem C7_trie_insert_search_delete_matches {α : Type} :
    (∀ (t : Trie α) (w : String) (dat : Option α),
        (t.insert w dat).search w = true)
  ∧ (∀ (t : Trie α) (w : String),
        (t.delete w).search w = false
      ∧ (∀ v : String, (t.normalize v).data ≠ (t.normalize w).data →
            (t.delete w).search v = t.search v))
  ∧ (∀ (t : Trie α) (w text : String) (p : ℕ),
        t.search w = true →
        (t.normalize w).data ≠ [] →
        (t.normalize w).data.isPrefixOf ((t.normalize text).data.drop p) →
        ∃ d : Option α,
          (String.mk (t.normalize w).data, p, d) ∈ t.find_all_matches text) := by
  have hnorm_insert : ∀ (t : Trie α) (w dat v), (Trie.insert t w dat).normalize v = t.normalize v := by
    intro t w dat v
    cases t; rfl
  have hnorm_delete : ∀ (t : Trie α) (w v), (Trie.delete t w).normalize v = t.normalize v := by
    intro t w v
    cases t; rfl
  refine ⟨?_, ?_, ?_⟩
  · intro t w dat
    show searchAux (Trie.insert t w dat).root ((Trie.insert t w dat).normalize w).data = true
    rw [hnorm_insert]
    have hroot : (Trie.insert t w dat).root = insertAux t.root (t.normalize w).data dat := by
      cases t; rfl
    rw [hroot]
    exact searchAux_insertAux _ _ dat
  · intro t w
    have hroot : (Trie.delete t w).root = (deleteAux t.root (t.normalize w).data).1 := by
      cases t; rfl
    obtain ⟨h1, h2, _⟩ := deleteAux_spec (t.normalize w).data t.root
    constructor
    · show searchAux (Trie.delete t w).root ((Trie.delete t w).normalize w).data = false
      rw [hnorm_delete, hroot]
      exact h1
    · intro v hv
      show searchAux (Trie.delete t w).root ((Trie.delete t w).normalize v).data
          = searchAux t.root (t.normalize v).data
      rw [hnorm_delete, hroot]
      exact h2 _ hv
  · intro t w text p hsearch hne hpre
    have hfind : ∃ m : TrieNode α,
        findNodeAux t.root (t.normalize w).data = some m ∧ m.is_end = true := by
      unfold Trie.search searchAux at hsearch
      cases hf : findNodeAux t.root (t.normalize w).data with
      | none => rw [hf] at hsearch; exact absurd hsearch (by simp)
      | some m => exact ⟨m, rfl, by rw [hf] at hsearch; exact hsearch⟩
    obtain ⟨m, hf, hend⟩ := hfind
    have hp : p < ((t.normalize text).data).length := by
      by_contra hcon
      push_neg at hcon
      have hdrop : ((t.normalize text).data).drop p = [] :=
        List.drop_eq_nil_iff.mpr hcon
      rw [hdrop] at hpre
      cases hw : (t.normalize w).data with
      | nil => exact hne hw
      | cons c cs => rw [hw] at hpre; simp [List.isPrefixOf] at hpre
    refine ⟨m.data, ?_⟩
    have hw1 : (([] : List Char) ++ (t.normalize w).data, p, m.data)
        ∈ walkCollect t.root (((t.normalize text).data).drop p) [] p :=
      walkCollect_mem (t.normalize w).data t.root _ [] p m hne hpre hf hend
    rw [List.nil_append] at hw1
    have hw2 : walkCollect t.root (((t.normalize text).data).drop p) [] p
        ∈ (List.range ((t.normalize text).data).length).map
            (fun i => walkCollect t.root (((t.normalize text).data).drop i) [] i) :=
      List.mem_map_of_mem _ (List.mem_range.mpr hp)
    have hw3 : ((t.normalize w).data, p, m.data)
        ∈ ((List.range ((t.normalize text).data).length).map
            (fun i => walkCollect t.root (((t.normalize text).data).drop i) [] i)).flatten :=
      List.mem_flatten.mpr ⟨_, hw2, hw1⟩
    unfold Trie.find_all_matches
    exact List.mem_map_of_mem _ hw3

theorem C7_trie_insert_search_delete_matches_witness :
    ((Trie.empty ℕ false).insert "hi" none).search "hi" = true
  ∧ (((Trie.empty ℕ false).insert "hi" none).delete "hi").search "hi" = false
  ∧ (∃ d : Option ℕ,
      (String.mk ((((Trie.empty ℕ false).insert "hi" none).normalize "hi").data), 3, d)
        ∈ ((Trie.empty ℕ false).insert "hi" none).find_all_matches "oh hi") := by
  refine ⟨?_, ?_, ?_⟩
  · exact C7_trie_insert_search_delete_matches.1 (Trie.empty ℕ false) "hi" none
  · exact (C7_trie_insert_search_delete_matches.2.1 ((Trie.empty ℕ false).insert "hi" none) "hi").1
  · exact C7_trie_insert_search_delete_matches.2.2 ((Trie.empty ℕ false).insert "hi" none)
      "hi" "oh hi" 3 (C7_trie_insert_search_delete_matches.1 (Trie.empty ℕ false) "hi" none)
      (by decide) (by decide)

end TrieModel

namespace HmmDialogue

/-- Mood states of hmm_dialogue.py. -/
def MOOD_STATES : List String :=
  ["neutral", "curious", "warm", "playful", "concerned", "excited"]

/-- Topic states of hmm_dialogue.py. -/
def TOPIC_STATES : List String :=
  ["greeting", "personal", "advice", "lore", "feelings", "general"]

/-- Dict get with default on a string-keyed association list of rationals. -/
def alGetQ (l : List (String × ℚ)) (k : String) (d : ℚ) : ℚ :=
  match l.find? (fun p => p.1 == k) with
  | some p => p.2
  | none => d

/-- Python += on an existing key of a string-keyed dict of rationals. -/
def alAddQ (l : List (String × ℚ)) (k : String) (d : ℚ) : List (String × ℚ) :=
  l.map (fun p => if p.1 = k then (p.1, p.2 + d) else p)

/-- transitions.get(current, empty dict). -/
def alGetRow (m : List (String × List (String × ℚ))) (k : String) : List (String × ℚ) :=
  match m.find? (fun p => p.1 == k) with
  | some p => p.2
  | none => []

/-- base[frm][dst] += d on the nested transition dict. -/
def rowAdd (m : List (String × List (String × ℚ))) (frm dst : String) (d : ℚ) :
    List (String × List (String × ℚ)) :=
  m.map (fun r => if r.1 = frm then (r.1, alAddQ r.2 dst d) else r)

/-- The normalization loop at the end of _init_mood_transitions: every row is
divided by its (pre-loop) total. -/
def normalizeRows (m : List (String × List (String × ℚ))) :
    List (String × List (String × ℚ)) :=
  m.map (fun r => (r.1, r.2.map (fun p => (p.1, p.2 / (r.2.map Prod.snd).sum))))

/-- The base mood transition dict of _init_mood_transitions. -/
def baseMoodTransitions : List (String × List (String × ℚ)) :=
  [ ("neutral",   [("neutral", 0.15), ("curious", 0.25), ("warm", 0.25), ("playful", 0.15), ("concerned", 0.1), ("excited", 0.1)])
  , ("curious",   [("neutral", 0.1), ("curious", 0.35), ("warm", 0.2), ("playful", 0.15), ("concerned", 0.1), ("excited", 0.1)])
  , ("warm",      [("neutral", 0.1), ("curious", 0.2), ("warm", 0.35), ("playful", 0.15), ("concerned", 0.1), ("excited", 0.1)])
  , ("playful",   [("neutral", 0.1), ("curious", 0.15), ("warm", 0.2), ("playful", 0.35), ("concerned", 0.05), ("excited", 0.15)])
  , ("concerned", [("neutral", 0.15), ("curious", 0.1), ("warm", 0.3), ("playful", 0.05), ("concerned", 0.3), ("excited", 0.1)])
  , ("excited",   [("neutral", 0.1), ("curious", 0.2), ("warm", 0.2), ("playful", 0.2), ("concerned", 0.05), ("excited", 0.25)])
  ]

/-- _init_mood_transitions: base dict, persona-specific additive deltas chosen
by substring match on the lowercased persona name, then row normalization. -/
def initMoodTransitions (persona : String) : List (String × List (String × ℚ)) :=
  let pl := pyLower persona
  let adjusted :=
    if strContains pl "elio" then
      rowAdd (rowAdd (rowAdd (rowAdd baseMoodTransitions
        "neutral" "curious" 0.1) "neutral" "excited" 0.05) "curious" "excited" 0.1)
        "warm" "curious" 0.05
    else if strContains pl "glordon" then
      rowAdd (rowAdd (rowAdd baseMoodTransitions
        "neutral" "playful" 0.1) "playful" "playful" 0.1) "curious" "playful" 0.1
    else if strContains pl "olga" then
      rowAdd (rowAdd (rowAdd baseMoodTransitions
        "neutral" "neutral" 0.1) "warm" "neutral" 0.1) "playful" "neutral" 0.1
    else baseMoodTransitions
  normalizeRows adjusted

/-- _init_topic_transitions (returned as-is, no normalization pass). -/
def initTopicTransitions : List (String × List (String × ℚ)) :=
  [ ("greeting", [("greeting", 0.1), ("personal", 0.25), ("advice", 0.15), ("lore", 0.2), ("feelings", 0.15), ("general", 0.15)])
  , ("personal", [("greeting", 0.05), ("personal", 0.35), ("advice", 0.2), ("lore", 0.1), ("feelings", 0.2), ("general", 0.1)])
  , ("advice",   [("greeting", 0.05), ("personal", 0.2), ("advice", 0.35), ("lore", 0.1), ("feelings", 0.15), ("general", 0.15)])
  , ("lore",     [("greeting", 0.05), ("personal", 0.1), ("advice", 0.1), ("lore", 0.4), ("feelings", 0.1), ("general", 0.25)])
  , ("feelings", [("greeting", 0.05), ("personal", 0.3), ("advice", 0.2), ("lore", 0.05), ("feelings", 0.3), ("general", 0.1)])
  , ("general",  [("greeting", 0.1), ("personal", 0.2), ("advice", 0.15), ("lore", 0.15), ("feelings", 0.15), ("general", 0.25)])
  ]

/-- The laughing-face emoji listed among the playful mood keywords. -/
def emojiLaugh : String := String.mk [Char.ofNat 128514]

/-- The smiling-face emoji listed among the playful mood keywords. -/
def emojiSmile : String := String.mk [Char.ofNat 128516]

/-- _init_mood_keywords. -/
def initMoodKeywords : List (String × List String) :=
  [ ("curious", ["what", "how", "why", "when", "where", "who", "wonder", "curious", "?", "explain", "tell me"])
  , ("warm", ["thank", "appreciate", "love", "glad", "happy", "nice", "kind", "friend", "care", "miss"])
  , ("playful", ["lol", "haha", "funny", "joke", "play", "game", "fun", emojiLaugh, emojiSmile, "kidding"])
  , ("concerned", ["worried", "problem", "issue", "help", "wrong", "sad", "afraid", "scared", "anxious", "stress"])
  , ("excited", ["wow", "amazing", "awesome", "cool", "incredible", "!", "omg", "exciting", "love", "best"])
  ]

/-- _init_topic_keywords. -/
def initTopicKeywords : List (String × List String) :=
  [ ("greeting", ["hi", "hello", "hey", "morning", "evening", "night", "what\x27s up", "sup", "greetings"])
  , ("personal", ["you", "your", "yourself", "life", "day", "doing", "been", "family", "work"])
  , ("advice", ["should", "advice", "help", "what do", "recommend", "suggest", "think", "opinion"])
  , ("lore", ["communiverse", "space", "alien", "elio", "glordon", "olga", "story", "world", "universe"])
  , ("feelings", ["feel", "emotion", "sad", "happy", "angry", "love", "hate", "like", "dislike", "mood"])
  , ("general", [])
  ]

/-- The keyword bump loops shared by both likelihood computations: +0.2 per
keyword found as a substring of the message. -/
def bumpKeywords (likelihoods : List (String × ℚ)) (keywords : List (String × List String))
    (msg : String) : List (String × ℚ) :=
  keywords.foldl
    (fun acc p =>
      p.2.foldl (fun acc2 kw => if strContains msg kw then alAddQ acc2 p.1 (2/10) else acc2) acc)
    likelihoods

/-- _compute_mood_likelihoods: uniform 0.1 floor, keyword bumps, normalize. -/
def computeMoodLikelihoods (moodKeywords : List (String × List String)) (msg : String) :
    List (String × ℚ) :=
  let base := MOOD_STATES.map (fun m => (m, (1:ℚ)/10))
  let upd := bumpKeywords base moodKeywords msg
  let total := (upd.map Prod.snd).sum
  upd.map (fun p => (p.1, p.2 / total))

/-- _compute_topic_likelihoods: like the mood version plus the general-topic
fallback boost when no keyword fired. -/
def computeTopicLikelihoods (topicKeywords : List (String × List String)) (msg : String) :
    List (String × ℚ) :=
  let base := TOPIC_STATES.map (fun t => (t, (1:ℚ)/10))
  let upd := bumpKeywords base topicKeywords msg
  let upd2 := if ((upd.map Prod.snd).max?.getD 0) < 2/10 then alAddQ upd "general" (3/10) else upd
  let total := (upd2.map Prod.snd).sum
  upd2.map (fun p => (p.1, p.2 / total))

/-- The cumulative sampling loop of _sample_next_state, fed an explicit draw. -/
def sampleLoop : List (String × ℚ) → ℚ → ℚ → Option String
  | [], _, _ => none
  | (s, p) :: rest, r, cum => if r ≤ cum + p then some s else sampleLoop rest r (cum + p)

/-- _sample_next_state: multiply transition row by observation likelihoods,
normalize, and draw; falling back to the current state. -/
def sample_next_state (current : String) (transitions : List (String × List (String × ℚ)))
    (likelihoods : List (String × ℚ)) (r : ℚ) : String :=
  let transProbs := alGetRow transitions current
  let combined := likelihoods.map (fun sp => (sp.1, alGetQ transProbs sp.1 (1/10) * sp.2))
  let total := (combined.map Prod.snd).sum
  if total ≤ 0 then current
  else
    let probs := combined.map (fun sp => (sp.1, sp.2 / total))
    (sampleLoop probs r 0).getD current

/-- The mutable state of a DialogueHMM instance.  Stored history entries are
Python dicts, modelled as string-to-string association lists. -/
structure DialogueHMM : Type where
  persona : String
  current_mood : String
  current_topic : String
  mood_transitions : List (String × List (String × ℚ))
  topic_transitions : List (String × List (String × ℚ))
  mood_keywords : List (String × List String)
  topic_keywords : List (String × List String)
  history : List (List (String × String))
  max_history : ℕ

/-- DialogueHMM.__init__. -/
def DialogueHMM.init (persona : String) : DialogueHMM where
  persona := persona
  current_mood := "neutral"
  current_topic := "greeting"
  mood_transitions := initMoodTransitions persona
  topic_transitions := initTopicTransitions
  mood_keywords := initMoodKeywords
  topic_keywords := initTopicKeywords
  history := []
  max_history := 10

/-- DialogueHMM.update_state, with the two state draws passed explicitly.  When
a non-empty external history is supplied it replaces the stored one (truncated
to the last max_history entries) before the new turn entry is appended. -/
def DialogueHMM.update_state (st : DialogueHMM) (user_message : String)
    (history : Option (List (List (String × String)))) (r1 r2 : ℚ) : DialogueHMM :=
  let st1 := match history with
    | some h => if h ≠ [] then { st with history := pySliceLast st.max_history h } else st
    | none => st
  let message_lower := pyLower user_message
  let moodL := computeMoodLikelihoods st1.mood_keywords message_lower
  let topicL := computeTopicLikelihoods st1.topic_keywords message_lower
  let newMood := sample_next_state st1.current_mood st1.mood_transitions moodL r1
  let newTopic := sample_next_state st1.current_topic st1.topic_transitions topicL r2
  { st1 with
      current_mood := newMood
      current_topic := newTopic
      history := st1.history ++
        [[("message", String.mk (user_message.data.take 100)),
          ("mood", newMood), ("topic", newTopic)]] }

theorem update_state_none_history_length (st : DialogueHMM) (msg : String) (r1 r2 : ℚ) :
    ((st.update_state msg none r1 r2).history).length = st.history.length + 1 := by
  simp [DialogueHMM.update_state]

/-- C5 evidence: eleven update_state calls with no external history leave the
tracker holding eleven stored turns, exceeding the promised 10-entry bound
(the append in update_state never truncates to max_history). -/
theorem C5_hmm_history_overflow :
    10 < (((fun st => DialogueHMM.update_state st "hi" none 0 0)^[11]
      (DialogueHMM.init "default")).history).length := by
  have key : ∀ (n : ℕ) (st : DialogueHMM),
      (((fun s => DialogueHMM.update_state s "hi" none 0 0)^[n] st).history).length
        = st.history.length + n := by
    intro n
    induction n with
    | zero => intro st; simp
    | succ m ih =>
        intro st
        rw [Function.iterate_succ_apply']
        rw [update_state_none_history_length, ih st]
        omega
  rw [key 11 (DialogueHMM.init "default")]
  simp [DialogueHMM.init]

end HmmDialogue

namespace Cascade

/-- The Candidate dataclass of ensemble.py. -/
structure Candidate : Type where
  text : String
  source : String
  confidence : ℚ
  weight : ℚ := 1
  cf_score : ℚ := 1
  context_score : ℚ := 1
  metadata : List (String × String) := []
deriving DecidableEq

/-- Candidate.final_score: the product of the four score components. -/
def Candidate.final_score (c : Candidate) : ℚ :=
  c.confidence * c.weight * c.cf_score * c.context_score

/-- The persona metadata entries consulted by the cascade router. -/
structure PersonaMeta : Type where
  openers : List String
  speaking_style : Option String
deriving DecidableEq

/-- A conversation history entry (a Python dict with role and content keys). -/
structure HistMsg : Type where
  role : Option String
  content : Option String
deriving DecidableEq

/-- The generation context dict: only the keys the router reads. -/
structure GenContext : Type where
  persona : Option String
  scenario : Option String
  mood : Option String
  history : List HistMsg
deriving DecidableEq

/-- Python truthiness of an optional string. -/
def optTruthy (o : Option String) : Bool :=
  match o with
  | none => false
  | some s => s ≠ ""

/-- Word characters of the regex word boundary, ASCII as in the deny-list. -/
def isWordChar (c : Char) : Bool := c.isAlphanum || c = '_'

/-- The words of the BLOCKED_PATTERNS deny-list regex. -/
def blockedWords : List String := ["fuck", "shit", "damn", "hell"]

/-- One position of the compiled case-insensitive regex: the word occurs at i
with a word boundary on each side. -/
def matchesWordAt (t w : List Char) (i : ℕ) : Bool :=
  w.isPrefixOf (t.drop i)
  && (decide (i = 0) || !(isWordChar (t.getD (i - 1) ' ')))
  && (decide (t.length ≤ i + w.length) || !(isWordChar (t.getD (i + w.length) ' ')))

/-- pattern.search for the default blocked pattern, on the lowercased text. -/
def regexSearchBlocked (text : String) : Bool :=
  let t := (pyLower text).data
  blockedWords.any (fun w => (List.range (t.length + 1)).any (fun i => matchesWordAt t w.data i))

/-- The CascadeRouter state: persona metadata and compiled blocked patterns. -/
structure CascadeRouter : Type where
  personaMeta : String → Option PersonaMeta
  blockedPatterns : List (String → Bool)

/-- A router constructed with no persona metadata and the default deny-list. -/
def mkDefaultRouter : CascadeRouter :=
  ⟨fun _ => none, [regexSearchBlocked]⟩

/-- CascadeRouter._passes_content_filter. -/
def passes_content_filter (router : CascadeRouter) (text : String) : Bool :=
  !(router.blockedPatterns.any (fun p => p text))

/-- PERSONA_KEYWORDS of cascade.py. -/
def PERSONA_KEYWORDS : List (String × List String) :=
  [ ("elio", ["space", "cosmic", "stars", "alien", "lonely", "curious", "amazing"])
  , ("glordon", ["haha", "funny", "friend", "play", "joke"])
  , ("olga", ["discipline", "proper", "important", "listen", "understand"])
  ]

/-- Dict get with empty-list default on string-keyed keyword tables. -/
def alGetStrList (l : List (String × List String)) (k : String) : List String :=
  match l.find? (fun p => p.1 == k) with
  | some p => p.2
  | none => []

/-- CascadeRouter._passes_persona_consistency. -/
def passes_persona_consistency (c : Candidate) (ctx : GenContext) : Bool :=
  let persona := pyLower (ctx.persona.getD "")
  let text := pyLower c.text
  let keywords := alGetStrList PERSONA_KEYWORDS persona
  if keywords = [] then true
  else
    let nmatches := (keywords.filter (fun kw => strContains text kw)).length
    decide (0 < nmatches) || decide ((pyWords text).length < 20)

/-- The opening curly brace character, written by code point. -/
def lbrace : Char := Char.ofNat 123

/-- The closing curly brace character, written by code point. -/
def rbrace : Char := Char.ofNat 125

/-- The body of the stage-1 loop of _apply_safety_rules for one candidate:
none when a hard rule rejects it, otherwise the candidate with the soft
persona-consistency confidence adjustment applied. -/
def safetyFilterOne (router : CascadeRouter) (ctx : GenContext) (c : Candidate) :
    Option Candidate :=
  let text := c.text
  if pyStrip text = "" then none
  else if !(passes_content_filter router text) then none
  else
    let word_count := (pyWords text).length
    if word_count < 2 || 150 < word_count then none
    else
      let c2 := if !(passes_persona_consistency c ctx)
        then { c with confidence := c.confidence * 0.7 } else c
      if text.data.count lbrace ≠ text.data.count rbrace then none
      else if text.data.count '*' % 2 ≠ 0 then none
      else some c2

/-- CascadeRouter._apply_safety_rules. -/
def apply_safety_rules (router : CascadeRouter) (cands : List Candidate)
    (ctx : GenContext) : List Candidate :=
  cands.filterMap (safetyFilterOne router ctx)

/-- CascadeRouter._scenario_match_score. -/
def scenario_match_score (c : Candidate) (scenario : String) : ℚ :=
  let text := pyLower c.text
  let s := pyLower scenario
  if s = "greeting" then
    if ["hi", "hello", "hey", "welcome", "nice to"].any (fun w => strContains text w)
    then 1.3 else 1.0
  else if s = "advice" then
    if ["think", "suggest", "maybe", "try", "could"].any (fun w => strContains text w)
    then 1.2 else 1.0
  else if s = "feelings" then
    if ["feel", "understand", "care", "support"].any (fun w => strContains text w)
    then 1.2 else 1.0
  else 1.0

/-- mood_indicators of _mood_alignment_score. -/
def MOOD_INDICATORS : List (String × List String) :=
  [ ("excited", ["!", "wow", "amazing", "awesome", "incredible"])
  , ("curious", ["?", "wonder", "how", "why", "what"])
  , ("warm", ["smile", "glad", "happy", "care", "appreciate"])
  , ("playful", ["haha", "lol", "funny", "joke", "play"])
  , ("concerned", ["worried", "careful", "make sure", "okay"])
  ]

/-- CascadeRouter._mood_alignment_score. -/
def mood_alignment_score (c : Candidate) (mood : String) : ℚ :=
  let text := pyLower c.text
  let indicators := alGetStrList MOOD_INDICATORS mood
  if indicators = [] then 1.0
  else
    let nmatches := (indicators.filter (fun ind => strContains text ind)).length
    if 0 < nmatches then 1.0 + 0.1 * ((min nmatches 3 : ℕ) : ℚ) else 0.9

/-- The repetition loop of _history_coherence_score over the recent bot texts. -/
def coherenceLoop (textW : List String) : List String → ℚ
  | [] => 1.0
  | recent :: rest =>
      let recentW := (pyWords recent).dedup
      if textW = [] ∨ recentW = [] then coherenceLoop textW rest
      else
        let inter := (textW.filter (fun w => recentW.contains w)).length
        let union := (textW ++ recentW.filter (fun w => !(textW.contains w))).length
        if (inter : ℚ) / (union : ℚ) > 0.5 then 0.5 else coherenceLoop textW rest

/-- CascadeRouter._history_coherence_score. -/
def history_coherence_score (c : Candidate) (history : List HistMsg) : ℚ :=
  if history = [] then 1.0
  else
    let recent_bot_texts := (pySliceLast 3 history).filterMap
      (fun h => if h.role = some "assistant" then some (pyLower (h.content.getD "")) else none)
    let textW := (pyWords (pyLower c.text)).dedup
    coherenceLoop textW recent_bot_texts

/-- CascadeRouter._persona_style_score. -/
def persona_style_score (router : CascadeRouter) (c : Candidate) (persona : String) : ℚ :=
  match router.personaMeta persona with
  | none => 1.0
  | some meta =>
      let text := pyLower c.text
      let speaking_style := pyLower (meta.speaking_style.getD "")
      let score :=
        if speaking_style = "" then (1.0 : ℚ)
        else ((pyWords speaking_style).take 5).foldl
          (fun sc w => if 3 < w.length ∧ strContains text w then sc * 1.1 else sc) 1.0
      min 1.5 score

/-- CascadeRouter._score_context_fit: the four multiplicative factors, applied
when the corresponding context key is truthy, floored at 0.1. -/
def score_context_fit (router : CascadeRouter) (cands : List Candidate)
    (ctx : GenContext) : List Candidate :=
  cands.map (fun c =>
    let s1 := if optTruthy ctx.scenario then scenario_match_score c (ctx.scenario.getD "") else 1
    let s2 := if optTruthy ctx.mood then mood_alignment_score c (ctx.mood.getD "") else 1
    let s3 := if ctx.history ≠ [] then history_coherence_score c ctx.history else 1
    let s4 := if optTruthy ctx.persona then persona_style_score router c (ctx.persona.getD "") else 1
    { c with context_score := max 0.1 (s1 * s2 * s3 * s4) })

/-- The cumulative weighted draw of _probabilistic_select. -/
def selectLoop : List (Candidate × ℚ) → ℚ → ℚ → Option Candidate
  | [], _, _ => none
  | (c, p) :: rest, r, cum => if r ≤ cum + p then some c else selectLoop rest r (cum + p)

/-- CascadeRouter._probabilistic_select, with the draw passed explicitly; the
ValueError on an empty candidate list is modelled as none.  When the loop
falls through, the last candidate is returned as in the source. -/
def probabilistic_select (cands : List Candidate) (r : ℚ) : Option Candidate :=
  if cands = [] then none
  else
    let weights := cands.map (fun c => max 0.05 c.final_score)
    let total := weights.sum
    let probs := weights.map (fun w => w / total)
    (selectLoop (cands.zip probs) r 0).elim cands.getLast? some

/-- The generic fallback phrases of _create_fallback. -/
def genericFallbacks : List String :=
  ["I\x27m here to help!", "That\x27s interesting.", "Tell me more!",
   "I appreciate you sharing that."]

/-- CascadeRouter._create_fallback, with the random.choice draw explicit. -/
def create_fallback (router : CascadeRouter) (ctx : GenContext) (k : ℕ) : Candidate :=
  let persona := ctx.persona.getD "default"
  let openers := match router.personaMeta persona with
    | some meta => meta.openers
    | none => []
  let text := if openers ≠ [] then pyChoice openers k else pyChoice genericFallbacks k
  { text := text, source := "fallback", confidence := 0.1, weight := 1.0,
    cf_score := 1.0, context_score := 1.0, metadata := [("reason", "safety_fallback")] }

/-- The cf_scores application at the head of route. -/
def applyCf (cands : List Candidate) (cf : Option (List ℚ)) : List Candidate :=
  match cf with
  | none => cands
  | some scores =>
      if scores = [] then cands
      else cands.enum.map
        (fun ic => if ic.1 < scores.length then { ic.2 with cf_score := scores.getD ic.1 0 } else ic.2)

/-- CascadeRouter.route: fallback on empty input, cf application, stage-1
safety filter (fallback when nothing survives), stage-2 context scoring and
stage-3 probabilistic selection. -/
def route (router : CascadeRouter) (ctx : GenContext) (cands : List Candidate)
    (cf : Option (List ℚ)) (r : ℚ) (k : ℕ) : Option Candidate :=
  if cands = [] then some (create_fallback router ctx k)
  else
    let cands1 := applyCf cands cf
    let safe := apply_safety_rules router cands1 ctx
    if safe = [] then some (create_fallback router ctx k)
    else probabilistic_select (score_context_fit router safe ctx) r

theorem selectLoop_mem :
    ∀ (l : List (Candidate × ℚ)) (r cum : ℚ) (c : Candidate),
      selectLoop l r cum = some c → ∃ p, (c, p) ∈ l := by
  intro l
  induction l with
  | nil => intro r cum c h; simp [selectLoop] at h
  | cons a rest ih =>
      obtain ⟨c1, p1⟩ := a
      intro r cum c h
      rw [selectLoop] at h
      by_cases hr : r ≤ cum + p1
      · rw [if_pos hr, Option.some.injEq] at h
        exact ⟨p1, by rw [← h]; exact List.mem_cons_self _ _⟩
      · rw [if_neg hr] at h
        obtain ⟨p, hp⟩ := ih r (cum + p1) c h
        exact ⟨p, List.mem_cons_of_mem _ hp⟩

theorem getLast?_mem_cascade :
    ∀ (l : List Candidate) (c : Candidate), l.getLast? = some c → c ∈ l := by
  intro l
  induction l with
  | nil => intro c h; simp at h
  | cons a rest ih =>
      intro c h
      cases rest with
      | nil =>
          simp [List.getLast?] at h
          rw [← h]
          exact List.mem_cons_self _ _
      | cons b rest2 =>
          rw [List.getLast?_cons_cons] at h
          exact List.mem_cons_of_mem a (ih c h)

theorem getLast?_total (l : List Candidate) (hne : l ≠ []) :
    ∃ c, l.getLast? = some c := by
  cases hg : l.getLast? with
  | some c => exact ⟨c, rfl⟩
  | none => exact absurd (List.getLast?_eq_none_iff.mp hg) hne

theorem elim_getLast_mem {cands : List Candidate} {zipped : List (Candidate × ℚ)}
    {r : ℚ} {c : Candidate}
    (hzip : ∀ c2 p, (c2, p) ∈ zipped → c2 ∈ cands)
    (h : (selectLoop zipped r 0).elim cands.getLast? some = some c) : c ∈ cands := by
  cases hsel : selectLoop zipped r 0 with
  | some c2 =>
      rw [hsel] at h
      simp only [Option.elim, Option.some.injEq] at h
      obtain ⟨p, hp⟩ := selectLoop_mem zipped r 0 c2 hsel
      rw [← h]
      exact hzip c2 p hp
  | none =>
      rw [hsel] at h
      simp only [Option.elim] at h
      exact getLast?_mem_cascade _ c h

theorem elim_getLast_total (cands : List Candidate) (sel : Option Candidate)
    (hne : cands ≠ []) :
    ∃ c, sel.elim cands.getLast? some = some c := by
  cases sel with
  | some c => exact ⟨c, rfl⟩
  | none => exact getLast?_total cands hne

theorem probabilistic_select_mem (cands : List Candidate) (r : ℚ) (c : Candidate)
    (h : probabilistic_select cands r = some c) : c ∈ cands := by
  by_cases hne : cands = []
  · rw [probabilistic_select, if_pos hne] at h
    exact Option.noConfusion h
  · simp only [probabilistic_select, if_neg hne] at h
    exact elim_getLast_mem (fun c2 p hp => (List.of_mem_zip hp).1) h

theorem probabilistic_select_total (cands : List Candidate) (r : ℚ)
    (hne : cands ≠ []) : ∃ c, probabilistic_select cands r = some c := by
  simp only [probabilistic_select, if_neg hne]
  exact elim_getLast_total cands _ hne

theorem safetyFilterOne_spec (router : CascadeRouter) (ctx : GenContext)
    (a c : Candidate) (h : safetyFilterOne router ctx a = some c) :
    c.text = a.text ∧ c.source = a.source
  ∧ passes_content_filter router a.text = true := by
  simp only [safetyFilterOne] at h
  split_ifs at h with h1 h2 h3 h4 h5 h6 <;>
    first
      | exact Option.noConfusion h
      | (injection h with h
         subst h
         exact ⟨rfl, rfl, by simpa using h2⟩)

theorem score_context_fit_mem (router : CascadeRouter) (ctx : GenContext)
    (safe : List Candidate) (c : Candidate) (h : c ∈ score_context_fit router safe ctx) :
    ∃ c0 ∈ safe, c.text = c0.text ∧ c.source = c0.source := by
  obtain ⟨c0, hc0, heq⟩ := List.mem_map.mp h
  exact ⟨c0, hc0, by rw [← heq], by rw [← heq]⟩

theorem pyChoice_mem (l : List String) (k : ℕ) (hne : l ≠ []) : pyChoice l k ∈ l := by
  have hlen : 0 < l.length := List.length_pos.mpr hne
  have hmod : k % l.length < l.length := Nat.mod_lt _ hlen
  unfold pyChoice
  rw [List.get?_eq_get hmod]
  exact List.get_mem l _ _

theorem applyCf_nil (cf : Option (List ℚ)) : applyCf [] cf = [] := by
  cases cf with
  | none => rfl
  | some scores =>
      simp only [applyCf]
      by_cases hs : scores = []
      · rw [if_pos hs]
      · rw [if_neg hs]; rfl

/-- C1: route always returns a candidate; and when nothing survives the
stage-1 safety rules (in particular on an empty candidate list) it returns
the synthesized fallback, whose confidence is 0.1, whose source is
"fallback", and whose text is drawn from the persona opener phrases when
they exist and from the fixed generic phrase list otherwise. -/
theorem C1_cascade_route_total_and_fallback (router : CascadeRouter) (ctx : GenContext)
    (cands : List Candidate) (cf : Option (List ℚ)) (r : ℚ) (k : ℕ) :
    (∃ c, route router ctx cands cf r k = some c)
  ∧ (apply_safety_rules router (applyCf cands cf) ctx = [] →
      route router ctx cands cf r k = some (create_fallback router ctx k))
  ∧ (create_fallback router ctx k).confidence = 0.1
  ∧ (create_fallback router ctx k).source = "fallback"
  ∧ ((match router.personaMeta (ctx.persona.getD "default") with
        | some meta => meta.openers
        | none => []) ≠ [] →
        (create_fallback router ctx k).text
          ∈ (match router.personaMeta (ctx.persona.getD "default") with
              | some meta => meta.openers
              | none => []))
  ∧ ((match router.personaMeta (ctx.persona.getD "default") with
        | some meta => meta.openers
        | none => []) = [] →
        (create_fallback router ctx k).text ∈ genericFallbacks) := by
  refine ⟨?_, ?_, rfl, rfl, ?_, ?_⟩
  · by_cases hc : cands = []
    · exact ⟨create_fallback router ctx k, by rw [route, if_pos hc]⟩
    · by_cases hs : apply_safety_rules router (applyCf cands cf) ctx = []
      · exact ⟨create_fallback router ctx k, by simp [route, hc, hs]⟩
      · simp only [route, if_neg hc, if_neg hs]
        apply probabilistic_select_total
        intro hmap
        exact hs (by simpa [score_context_fit] using hmap)
  · intro hs
    by_cases hc : cands = []
    · rw [route, if_pos hc]
    · simp [route, hc, hs]
  · intro hne
    cases hm : router.personaMeta (ctx.persona.getD "default") with
    | none => rw [hm] at hne; exact absurd rfl hne
    | some meta =>
        rw [hm] at hne
        have hne2 : meta.openers ≠ [] := hne
        simp only [create_fallback, hm]
        rw [if_pos hne2]
        exact pyChoice_mem _ k hne2
  · intro hnil
    cases hm : router.personaMeta (ctx.persona.getD "default") with
    | none =>
        simp only [create_fallback, hm]
        rw [if_neg (by simp)]
        exact pyChoice_mem _ k (by simp [genericFallbacks])
    | some meta =>
        rw [hm] at hnil
        have hnil2 : meta.openers = [] := hnil
        simp only [create_fallback, hm]
        rw [if_neg (by simp [hnil2])]
        exact pyChoice_mem _ k (by simp [genericFallbacks])

theorem C1_cascade_route_total_and_fallback_witness :
    apply_safety_rules mkDefaultRouter
        (applyCf [] none) ⟨none, none, none, []⟩ = []
  ∧ route mkDefaultRouter ⟨none, none, none, []⟩ [] none 0 0
      = some (create_fallback mkDefaultRouter ⟨none, none, none, []⟩ 0) :=
  ⟨rfl, (C1_cascade_route_total_and_fallback mkDefaultRouter
    ⟨none, none, none, []⟩ [] none 0 0).2.1 rfl⟩

/-- C3: whatever route returns either is the synthesized fallback or has text
passing the content filter: stage 3 only draws from candidates that survived
the stage-1 filter, and stage 2 rewrites only the context score. -/
theorem C3_cascade_selected_text_unblocked (router : CascadeRouter) (ctx : GenContext)
    (cands : List Candidate) (cf : Option (List ℚ)) (r : ℚ) (k : ℕ) (c : Candidate)
    (h : route router ctx cands cf r k = some c) :
    c.source = "fallback" ∨ passes_content_filter router c.text = true := by
  by_cases hc : cands = []
  · rw [route, if_pos hc, Option.some.injEq] at h
    left
    rw [← h]
    rfl
  · by_cases hs : apply_safety_rules router (applyCf cands cf) ctx = []
    · simp [route, hc, hs] at h
      left
      rw [← h]
      rfl
    · simp only [route, if_neg hc, if_neg hs] at h
      right
      have hmem := probabilistic_select_mem _ r c h
      obtain ⟨c0, hc0, htext, _⟩ := score_context_fit_mem router ctx _ c hmem
      obtain ⟨a, _, ha⟩ := List.mem_filterMap.mp hc0
      obtain ⟨ht, _, hpass⟩ := safetyFilterOne_spec router ctx a c0 ha
      rw [htext, ht]
      exact hpass

theorem C3_cascade_selected_text_unblocked_witness :
    route mkDefaultRouter ⟨none, none, none, []⟩ [] none 0 0
      = some (create_fallback mkDefaultRouter ⟨none, none, none, []⟩ 0)
  ∧ ((create_fallback mkDefaultRouter ⟨none, none, none, []⟩ 0).source = "fallback"
      ∨ passes_content_filter mkDefaultRouter
          (create_fallback mkDefaultRouter ⟨none, none, none, []⟩ 0).text = true) :=
  ⟨rfl, C3_cascade_selected_text_unblocked mkDefaultRouter ⟨none, none, none, []⟩
    [] none 0 0 _ rfl⟩

end Cascade

namespace BM25

/-- The fitted state of BM25Retriever: parameters, tokenized documents,
document lengths, average document length, and the precomputed idf dict. -/
structure BM25Retriever : Type where
  k1 : ℚ
  b : ℚ
  epsilon : ℚ
  documents : List (List String)
  doc_lengths : List ℕ
  avgdl : ℚ
  idf : List (String × ℚ)

/-- self.idf.get(term, self.epsilon) in _score_document. -/
def idfGet (st : BM25Retriever) (term : String) : ℚ :=
  match st.idf.find? (fun p => p.1 == term) with
  | some p => p.2
  | none => st.epsilon

/-- BM25Retriever.fit.  The transcendental math.log of _compute_idf is not
representable over the rationals, so fit takes the log as an oracle argument;
the epsilon floor of _compute_idf is applied to whatever it returns, which is
the only property of the idf values the scoring facts below use. -/
def fit (k1 b epsilon : ℚ) (logApprox : ℚ → ℚ) (docs : List String) : BM25Retriever :=
  let toks := docs.map pyTokenize
  let lengths := toks.map List.length
  let N := toks.length
  let docFreq : String → ℕ := fun t => (toks.filter (fun d => d.contains t)).length
  let avgdl : ℚ := if N = 0 then 0
    else ((lengths.map (fun (n : ℕ) => (n : ℚ))).sum) / (N : ℚ)
  let idf := ((toks.map List.dedup).flatten.dedup).map (fun t =>
    (t, max (logApprox ((((N : ℚ) - (docFreq t : ℚ) + 1/2) / ((docFreq t : ℚ) + 1/2)) + 1))
          epsilon))
  ⟨k1, b, epsilon, toks, lengths, avgdl, idf⟩

/-- One iteration of the scoring loop of _score_document: zero for terms
absent from the document, otherwise the saturated tf-idf contribution. -/
def termScore (st : BM25Retriever) (docTokens : List String) (docLen : ℕ)
    (term : String) : ℚ :=
  let freq := docTokens.count term
  if freq = 0 then 0
  else idfGet st term * ((freq : ℚ) * (st.k1 + 1))
        / ((freq : ℚ) + st.k1 * (1 - st.b + st.b * (docLen : ℚ) / st.avgdl))

/-- BM25Retriever._score_document: the accumulated contributions of all query
tokens. -/
def score_document (st : BM25Retriever) (queryTokens docTokens : List String)
    (docLen : ℕ) : ℚ :=
  (queryTokens.map (termScore st docTokens docLen)).sum

theorem idfGet_fit_ge (k1 b epsilon : ℚ) (logApprox : ℚ → ℚ) (docs : List String)
    (term : String) : epsilon ≤ idfGet (fit k1 b epsilon logApprox docs) term := by
  unfold idfGet
  cases hf : (fit k1 b epsilon logApprox docs).idf.find? (fun p => p.1 == term) with
  | none => exact le_refl _
  | some p =>
      have hmem := List.mem_of_find?_eq_some hf
      simp only [fit] at hmem
      obtain ⟨t2, _, heq⟩ := List.mem_map.mp hmem
      rw [← heq]
      exact le_max_right _ _

theorem avgdl_fit_pos (k1 b epsilon : ℚ) (logApprox : ℚ → ℚ) (docs : List String)
    (dTok : List String)
    (hd : dTok ∈ (fit k1 b epsilon logApprox docs).documents) (hne : dTok ≠ []) :
    0 < (fit k1 b epsilon logApprox docs).avgdl := by
  have hd2 : dTok ∈ docs.map pyTokenize := hd
  have heq : (fit k1 b epsilon logApprox docs).avgdl
      = (if (docs.map pyTokenize).length = 0 then (0 : ℚ)
         else (((docs.map pyTokenize).map List.length).map (fun (n : ℕ) => (n : ℚ))).sum
              / ((docs.map pyTokenize).length : ℚ)) := by
    unfold fit
    rfl
  rw [heq]
  have hN : (docs.map pyTokenize).length ≠ 0 := by
    intro h0
    rw [List.length_eq_zero] at h0
    rw [h0] at hd2
    exact absurd hd2 (List.not_mem_nil dTok)
  rw [if_neg hN]
  apply div_pos
  · have hsingle : (dTok.length : ℚ)
        ≤ (((docs.map pyTokenize).map List.length).map (fun (n : ℕ) => (n : ℚ))).sum := by
      refine List.single_le_sum ?_ _ ?_
      · intro x hx
        obtain ⟨n, _, hn⟩ := List.mem_map.mp hx
        rw [← hn]
        exact Nat.cast_nonneg n
      · exact List.mem_map_of_mem (fun (n : ℕ) => (n : ℚ))
          (List.mem_map_of_mem List.length hd2)
    have hlen : (1 : ℚ) ≤ (dTok.length : ℚ) := by
      have h1 : 1 ≤ dTok.length := by
        cases dTok with
        | nil => exact absurd rfl hne
        | cons a l => exact Nat.succ_le_succ (Nat.zero_le _)
      exact_mod_cast h1
    linarith
  · exact_mod_cast Nat.pos_of_ne_zero hN

theorem score_document_append (st : BM25Retriever) (Q : List String) (t : String)
    (docTokens : List String) (docLen : ℕ) :
    score_document st (Q ++ [t]) docTokens docLen
      = score_document st Q docTokens docLen + termScore st docTokens docLen t := by
  simp [score_document, List.map_append, List.sum_append]

theorem termScore_absent (st : BM25Retriever) (docTokens : List String) (docLen : ℕ)
    (t : String) (h : t ∉ docTokens) : termScore st docTokens docLen t = 0 := by
  unfold termScore
  rw [if_pos (List.count_eq_zero.mpr h)]

theorem termScore_pos (st : BM25Retriever) (docTokens : List String) (docLen : ℕ)
    (t : String) (ht : t ∈ docTokens) (heps : 0 < st.epsilon)
    (hidf : st.epsilon ≤ idfGet st t) (hk1 : 0 ≤ st.k1) (hb0 : 0 ≤ st.b)
    (hb1 : st.b ≤ 1) (havg : 0 < st.avgdl) :
    0 < termScore st docTokens docLen t := by
  unfold termScore
  have hcount : 0 < docTokens.count t := List.count_pos_iff.mpr ht
  rw [if_neg (Nat.pos_iff_ne_zero.mp hcount)]
  have hfreq : (0 : ℚ) < (docTokens.count t : ℚ) := by exact_mod_cast hcount
  have hnum : (0 : ℚ) < (docTokens.count t : ℚ) * (st.k1 + 1) := by
    apply mul_pos hfreq
    linarith
  have hden : (0 : ℚ) < (docTokens.count t : ℚ)
      + st.k1 * (1 - st.b + st.b * (docLen : ℚ) / st.avgdl) := by
    have h1 : (0 : ℚ) ≤ st.b * (docLen : ℚ) / st.avgdl := by
      apply div_nonneg (mul_nonneg hb0 (Nat.cast_nonneg docLen)) (le_of_lt havg)
    have h2 : (0 : ℚ) ≤ st.k1 * (1 - st.b + st.b * (docLen : ℚ) / st.avgdl) := by
      apply mul_nonneg hk1
      linarith
    linarith
  calc (0 : ℚ) < st.epsilon * ((docTokens.count t : ℚ) * (st.k1 + 1)
        / ((docTokens.count t : ℚ) + st.k1 * (1 - st.b + st.b * (docLen : ℚ) / st.avgdl))) :=
          mul_pos heps (div_pos hnum hden)
    _ ≤ idfGet st t * ((docTokens.count t : ℚ) * (st.k1 + 1)
        / ((docTokens.count t : ℚ) + st.k1 * (1 - st.b + st.b * (docLen : ℚ) / st.avgdl))) := by
          apply mul_le_mul_of_nonneg_right hidf
          exact le_of_lt (div_pos hnum hden)
    _ = idfGet st t * ((docTokens.count t : ℚ) * (st.k1 + 1))
        / ((docTokens.count t : ℚ) + st.k1 * (1 - st.b + st.b * (docLen : ℚ) / st.avgdl)) := by
          ring

/-- C6: on a fitted index, appending to the query one term that occurs in
document D and in no other document strictly increases the score of D, leaves
the score of every document lacking the term unchanged, and hence strictly
increases the score margin of D over every such document. -/
theorem C6_bm25_unique_term_strictly_helps
    (st : BM25Retriever) (k1 b epsilon : ℚ) (logApprox : ℚ → ℚ) (docs : List String)
    (hst : st = fit k1 b epsilon logApprox docs)
    (hk1 : 0 ≤ k1) (hb0 : 0 ≤ b) (hb1 : b ≤ 1) (heps : 0 < epsilon)
    (dTok : List String) (t : String) (Q : List String)
    (hd : dTok ∈ st.documents) (ht : t ∈ dTok)
    (hunique : ∀ eTok ∈ st.documents, eTok ≠ dTok → t ∉ eTok) :
    score_document st Q dTok dTok.length
        < score_document st (Q ++ [t]) dTok dTok.length
  ∧ (∀ (eTok : List String) (eLen : ℕ), t ∉ eTok →
      score_document st (Q ++ [t]) eTok eLen = score_document st Q eTok eLen)
  ∧ (∀ (eTok : List String) (eLen : ℕ), t ∉ eTok →
      score_document st Q dTok dTok.length - score_document st Q eTok eLen
        < score_document st (Q ++ [t]) dTok dTok.length
            - score_document st (Q ++ [t]) eTok eLen) := by
  have hfields : st.k1 = k1 ∧ st.b = b ∧ st.epsilon = epsilon := by
    rw [hst]; exact ⟨rfl, rfl, rfl⟩
  have hne : dTok ≠ [] := by
    intro h0
    rw [h0] at ht
    exact absurd ht (List.not_mem_nil t)
  have havg : 0 < st.avgdl := by
    rw [hst]
    exact avgdl_fit_pos k1 b epsilon logApprox docs dTok (hst ▸ hd) hne
  have hidf : st.epsilon ≤ idfGet st t := by
    rw [hst]
    exact idfGet_fit_ge k1 b epsilon logApprox docs t
  have hpos : 0 < termScore st dTok dTok.length t := by
    apply termScore_pos st dTok dTok.length t ht
    · rw [hfields.2.2]; exact heps
    · exact hidf
    · rw [hfields.1]; exact hk1
    · rw [hfields.2.1]; exact hb0
    · rw [hfields.2.1]; exact hb1
    · exact havg
  have hpres : ∀ (eTok : List String) (eLen : ℕ), t ∉ eTok →
      score_document st (Q ++ [t]) eTok eLen = score_document st Q eTok eLen := by
    intro eTok eLen habs
    rw [score_document_append, termScore_absent st eTok eLen t habs]
    ring
  refine ⟨?_, hpres, ?_⟩
  · rw [score_document_append]
    linarith
  · intro eTok eLen habs
    rw [hpres eTok eLen habs, score_document_append]
    linarith

theorem C6_bm25_unique_term_strictly_helps_witness :
    score_document (fit 1.5 0.75 0.25 (fun _ => 0) ["apple pie"]) []
        ["apple", "pie"] (["apple", "pie"] : List String).length
      < score_document (fit 1.5 0.75 0.25 (fun _ => 0) ["apple pie"])
          ([] ++ ["apple"]) ["apple", "pie"] (["apple", "pie"] : List String).length := by
  have hdocs : (fit 1.5 0.75 0.25 (fun _ => 0) ["apple pie"]).documents
      = [["apple", "pie"]] := by decide
  have h := C6_bm25_unique_term_strictly_helps
    (fit 1.5 0.75 0.25 (fun _ => 0) ["apple pie"])
    1.5 0.75 0.25 (fun _ => 0) ["apple pie"] rfl
    (by norm_num) (by norm_num) (by norm_num) (by norm_num)
    ["apple", "pie"] "apple" []
    (by rw [hdocs]; exact List.mem_singleton.mpr rfl)
    (by decide)
    (by
      intro eTok hmem hne2
      rw [hdocs] at hmem
      exact absurd (List.mem_singleton.mp hmem) hne2)
  exact h.1

end BM25

namespace ResponseCF

/-- STYLE_DIMENSIONS of response_cf.py. -/
def STYLE_DIMENSIONS : List (String × List String) :=
  [ ("length", ["short", "medium", "long"])
  , ("tone", ["casual", "formal", "playful", "warm", "enthusiastic"])
  , ("structure", ["question", "statement", "exclamation", "mixed"])
  , ("topic", ["lore", "humor", "advice", "empathy", "action", "observation"])
  ]

/-- The two membership guards at the top of the update loop: the dimension is
defined and the style belongs to it. -/
def styleDefined (dim style : String) : Bool :=
  match STYLE_DIMENSIONS.find? (fun p => p.1 == dim) with
  | some p => p.2.contains style
  | none => false

/-- The mutable state of a ResponseStyleCF instance; the nested preference
dicts are modelled as finitely-modified functions from user, dimension and
style names to (positive, total) pairs. -/
structure ResponseStyleCF : Type where
  learning_rate : ℚ
  decay : ℚ
  prior_strength : ℚ
  user_prefs : String → String → String → Option (ℚ × ℚ)
  global_prefs : String → String → Option (ℚ × ℚ)
  cache_dirty : Bool

/-- One iteration of the update loop: skip undefined pairs; otherwise decay
the stored pair (initializing it from the prior when absent), add the new
observation, and apply the slower global update. -/
def updateEntry (st : ResponseStyleCF) (user : String) (engagement : ℚ)
    (dim style : String) : ResponseStyleCF :=
  if styleDefined dim style then
    let cur := (st.user_prefs user dim style).getD (st.prior_strength, st.prior_strength * 2)
    let pos0 := cur.1 * st.decay
    let total0 := cur.2 * st.decay
    let total1 := total0 + 1
    let pos1 := pos0 + (if 1/2 ≤ engagement then engagement else engagement * (1/2))
    let g := (st.global_prefs dim style).getD (1, 2)
    let gTotal := g.2 + 1/10
    let gPos := if 1/2 ≤ engagement then g.1 + (1/10) * engagement else g.1
    { st with
        user_prefs := fun u d s =>
          if u = user ∧ d = dim ∧ s = style then some (pos1, total1)
          else st.user_prefs u d s,
        global_prefs := fun d s =>
          if d = dim ∧ s = style then some (gPos, gTotal) else st.global_prefs d s }
  else st

/-- ResponseStyleCF.update: fold the per-entry update over the style map and
mark the similarity cache dirty. -/
def update (st : ResponseStyleCF) (user : String)
    (response_styles : List (String × String)) (engagement : ℚ) : ResponseStyleCF :=
  let st2 := response_styles.foldl (fun acc p => updateEntry acc user engagement p.1 p.2) st
  { st2 with cache_dirty := true }

theorem updateEntry_decay (st : ResponseStyleCF) (user : String) (engagement : ℚ)
    (d s : String) : (updateEntry st user engagement d s).decay = st.decay := by
  by_cases h : styleDefined d s = true
  · simp [updateEntry, h]
  · simp [updateEntry, h]

theorem updateEntry_other_dim (st : ResponseStyleCF) (user : String) (engagement : ℚ)
    (d s dim style : String) (hne : d ≠ dim) :
    (updateEntry st user engagement d s).user_prefs user dim style
      = st.user_prefs user dim style := by
  by_cases h : styleDefined d s = true
  · simp only [updateEntry, h, if_true]
    rw [if_neg]
    intro hcon
    exact hne hcon.2.1.symm
  · simp [updateEntry, h]

theorem foldEntries_decay (user : String) (engagement : ℚ) :
    ∀ (l : List (String × String)) (acc : ResponseStyleCF),
    (l.foldl (fun acc p => updateEntry acc user engagement p.1 p.2) acc).decay
      = acc.decay := by
  intro l
  induction l with
  | nil => intro acc; rfl
  | cons q rest ih =>
      intro acc
      rw [List.foldl_cons, ih, updateEntry_decay]

theorem foldEntries_other_dims (user : String) (engagement : ℚ) (dim style : String) :
    ∀ (l : List (String × String)) (acc : ResponseStyleCF),
    (∀ q ∈ l, q.1 ≠ dim) →
    (l.foldl (fun acc p => updateEntry acc user engagement p.1 p.2) acc).user_prefs
        user dim style
      = acc.user_prefs user dim style := by
  intro l
  induction l with
  | nil => intro acc _; rfl
  | cons q rest ih =>
      intro acc h
      rw [List.foldl_cons, ih _ (fun v hv => h v (List.mem_cons_of_mem q hv)),
          updateEntry_other_dim _ _ _ _ _ _ _ (h q (List.mem_cons_self q rest))]

theorem updateEntry_hit (st : ResponseStyleCF) (user : String) (engagement : ℚ)
    (dim style : String) (p t : ℚ) (hdef : styleDefined dim style = true)
    (hcur : st.user_prefs user dim style = some (p, t)) :
    (updateEntry st user engagement dim style).user_prefs user dim style
      = some (p * st.decay + (if 1/2 ≤ engagement then engagement else engagement * (1/2)),
              t * st.decay + 1) := by
  simp only [updateEntry, hdef, if_true, eq_self_iff_true, and_self]
  rw [hcur]
  rfl

/-- C8: for a style-map entry within the defined style dimensions and values,
update rewrites that stored (positive, total) pair by first decaying both
components by 0.95, then adding 1 to total and adding engagement (or half of
it when engagement is below 0.5) to positive. -/
theorem C8_cf_update_decay_then_add
    (st : ResponseStyleCF) (user : String) (styles : List (String × String))
    (engagement : ℚ) (dim style : String) (p t : ℚ)
    (hnodup : (styles.map Prod.fst).Nodup)
    (hmem : (dim, style) ∈ styles)
    (hdef : styleDefined dim style = true)
    (hcur : st.user_prefs user dim style = some (p, t))
    (hdecay : st.decay = 19/20) :
    (update st user styles engagement).user_prefs user dim style
      = some (p * (19/20) + (if 1/2 ≤ engagement then engagement else engagement * (1/2)),
              t * (19/20) + 1) := by
  obtain ⟨l1, l2, heq⟩ := List.append_of_mem hmem
  subst heq
  have hmap : (l1.map Prod.fst ++ dim :: l2.map Prod.fst).Nodup := by
    simpa [List.map_append] using hnodup
  rw [List.nodup_append] at hmap
  have hl1 : ∀ q ∈ l1, q.1 ≠ dim := by
    intro q hq hcon
    exact hmap.2.2 (List.mem_map_of_mem Prod.fst hq)
      (by rw [hcon]; exact List.mem_cons_self _ _)
  have hl2 : ∀ q ∈ l2, q.1 ≠ dim := by
    intro q hq hcon
    have := hmap.2.1
    rw [List.nodup_cons] at this
    exact this.1 (hcon ▸ List.mem_map_of_mem Prod.fst hq)
  show ((l1 ++ (dim, style) :: l2).foldl
      (fun acc p => updateEntry acc user engagement p.1 p.2) st).user_prefs
        user dim style = _
  rw [List.foldl_append, List.foldl_cons]
  rw [foldEntries_other_dims user engagement dim style l2 _ hl2]
  have hacc1 : (l1.foldl (fun acc p => updateEntry acc user engagement p.1 p.2)
      st).user_prefs user dim style = some (p, t) := by
    rw [foldEntries_other_dims user engagement dim style l1 st hl1]
    exact hcur
  rw [updateEntry_hit _ user engagement dim style p t hdef hacc1,
      foldEntries_decay, hdecay]

theorem C8_cf_update_decay_then_add_witness :
    (update
      ⟨1/10, 19/20, 1,
       (fun u d s => if u = "u" ∧ d = "tone" ∧ s = "warm" then some (1, 2) else none),
       (fun _ _ => none), false⟩
      "u" [("tone", "warm")] 1).user_prefs "u" "tone" "warm"
      = some (1 * (19/20) + (if (1:ℚ)/2 ≤ 1 then (1:ℚ) else 1 * (1/2)),
              2 * (19/20) + 1) := by
  apply C8_cf_update_decay_then_add
  · simp
  · exact List.mem_cons_self _ _
  · decide
  · simp
  · rfl

end ResponseCF

namespace Ngram

/-- The state of an NgramLanguageModel: parameters, the n-gram count tables
(order, then context tuple, then a counter over next words), and the
vocabulary size.  The counters are association lists with natural counts. -/
structure NgramLanguageModel : Type where
  max_order : ℕ
  smoothing_alpha : ℚ
  min_count : ℕ
  ngrams : ℕ → List String → Option (List (String × ℕ))
  vocab_size : ℕ

/-- counter.get(word, 0). -/
def counterGet (counter : List (String × ℕ)) (word : String) : ℕ :=
  match counter.find? (fun p => p.1 == word) with
  | some p => p.2
  | none => 0

/-- The beginning-of-sentence token. -/
def BOS : String := "<BOS>"

/-- NgramLanguageModel._get_continuation_prob: Stupid Backoff over the order,
with the Laplace-smoothed unigram estimate at order zero. -/
def get_continuation_prob (m : NgramLanguageModel) :
    ℕ → List String → String → ℚ
  | 0, _context, word =>
      let unigram := (m.ngrams 1 []).getD []
      let total := (unigram.map Prod.snd).sum
      let count := counterGet unigram word
      ((count : ℚ) + 1) / ((total : ℚ) + (m.vocab_size : ℚ) + 1)
  | (o + 1), context, word =>
      let order := o + 1
      let ctx := if order - 1 ≤ context.length
        then (if 1 < order then pySliceLast (order - 1) context else [])
        else context
      match m.ngrams order ctx with
      | some counter =>
          let total := (counter.map Prod.snd).sum
          let count := counterGet counter word
          if m.min_count ≤ count then (count : ℚ) / (total : ℚ)
          else m.smoothing_alpha * get_continuation_prob m o (context.drop 1) word
      | none => m.smoothing_alpha * get_continuation_prob m o (context.drop 1) word

/-- NgramLanguageModel.probability: lowercase, then backoff from max_order. -/
def probability (m : NgramLanguageModel) (word : String) (context : List String) : ℚ :=
  get_continuation_prob m m.max_order (context.map pyLower) (pyLower word)

/-- The loop of NgramLanguageModel.perplexity, collecting the conditional
probability of every token given the rolling context window. -/
def perplexityAux (m : NgramLanguageModel) : List String → List String → List ℚ
  | [], _ => []
  | tok :: rest, ctx =>
      probability m tok ctx
        :: perplexityAux m rest (pySliceLast (m.max_order - 1) (ctx ++ [tok]))

/-- The conditional probabilities that perplexity feeds into math.log. -/
def perplexityProbs (m : NgramLanguageModel) (text : String) : List ℚ :=
  perplexityAux m (pyTokenize text) (List.replicate (m.max_order - 1) BOS)

/-- Modelled from the float semantics of perplexity: math.log is -inf exactly
on nonpositive input, the running sum stays -inf once any term is, and
exp(-(-inf)/n) is +inf; while the empty tokenization returns inf directly.
So perplexity(text) is finite exactly when the text has at least one token
and every conditional probability of the chain is positive. -/
def perplexityFinite (m : NgramLanguageModel) (text : String) : Prop :=
  pyTokenize text ≠ [] ∧ ∀ p ∈ perplexityProbs m text, 0 < p

theorem counterGet_le_sum (counter : List (String × ℕ)) (word : String) :
    counterGet counter word ≤ (counter.map Prod.snd).sum := by
  unfold counterGet
  cases hf : counter.find? (fun p => p.1 == word) with
  | none => exact Nat.zero_le _
  | some p =>
      exact List.single_le_sum (fun _ _ => Nat.zero_le _) _
        (List.mem_map_of_mem Prod.snd (List.mem_of_find?_eq_some hf))

theorem get_continuation_prob_pos (m : NgramLanguageModel)
    (halpha : 0 < m.smoothing_alpha) (hmin : 1 ≤ m.min_count) :
    ∀ (o : ℕ) (context : List String) (word : String),
      0 < get_continuation_prob m o context word := by
  intro o
  induction o with
  | zero =>
      intro context word
      rw [get_continuation_prob]
      apply div_pos
      · have : (0 : ℚ) ≤ (counterGet ((m.ngrams 1 []).getD []) word : ℚ) :=
          Nat.cast_nonneg _
        linarith
      · have h1 : (0 : ℚ) ≤ ((((m.ngrams 1 []).getD []).map Prod.snd).sum : ℚ) :=
          Nat.cast_nonneg _
        have h2 : (0 : ℚ) ≤ (m.vocab_size : ℚ) := Nat.cast_nonneg _
        linarith
  | succ o2 ih =>
      intro context word
      rw [get_continuation_prob]
      cases hng : m.ngrams (o2 + 1)
          (if o2 + 1 - 1 ≤ context.length
           then (if 1 < o2 + 1 then pySliceLast (o2 + 1 - 1) context else [])
           else context) with
      | some counter =>
          simp only
          by_cases hcount : m.min_count ≤ counterGet counter word
          · rw [if_pos hcount]
            have h1 : 1 ≤ counterGet counter word := le_trans hmin hcount
            have h2 : counterGet counter word ≤ (counter.map Prod.snd).sum :=
              counterGet_le_sum counter word
            apply div_pos
            · exact_mod_cast Nat.lt_of_lt_of_le Nat.zero_lt_one h1
            · exact_mod_cast Nat.lt_of_lt_of_le (Nat.lt_of_lt_of_le Nat.zero_lt_one h1) h2
          · rw [if_neg hcount]
            exact mul_pos halpha (ih (context.drop 1) word)
      | none =>
          simp only
          exact mul_pos halpha (ih (context.drop 1) word)

theorem perplexityAux_mem (m : NgramLanguageModel) :
    ∀ (toks ctx : List String) (p : ℚ), p ∈ perplexityAux m toks ctx →
      ∃ (tok : String) (ctx2 : List String), p = probability m tok ctx2 := by
  intro toks
  induction toks with
  | nil => intro ctx p hp; simp [perplexityAux] at hp
  | cons tok rest ih =>
      intro ctx p hp
      rw [perplexityAux] at hp
      rcases List.mem_cons.mp hp with h1 | h1
      · exact ⟨tok, ctx, h1⟩
      · exact ih _ p h1

/-- C10: with the shipped parameters (positive backoff discount, minimum
count at least one) and a nonempty vocabulary, every conditional probability
is strictly positive because the backoff recursion bottoms out in the
Laplace-smoothed unigram estimate; hence the perplexity of any text with at
least one token is finite. -/
theorem C10_ngram_probability_pos_perplexity_finite (m : NgramLanguageModel)
    (halpha : 0 < m.smoothing_alpha) (hmin : 1 ≤ m.min_count)
    (hvocab : 0 < m.vocab_size) :
    (∀ (word : String) (context : List String), 0 < probability m word context)
  ∧ (∀ text : String, pyTokenize text ≠ [] → perplexityFinite m text) := by
  have hpos : ∀ (word : String) (context : List String), 0 < probability m word context := by
    intro word context
    exact get_continuation_prob_pos m halpha hmin m.max_order (context.map pyLower)
      (pyLower word)
  refine ⟨hpos, ?_⟩
  intro text hne
  refine ⟨hne, ?_⟩
  intro p hp
  obtain ⟨tok, ctx2, heq⟩ := perplexityAux_mem m _ _ p hp
  rw [heq]
  exact hpos tok ctx2

theorem C10_ngram_probability_pos_perplexity_finite_witness :
    (0 : ℚ) < (2/5 : ℚ) ∧ (1 : ℕ) ≤ 1 ∧ (0 : ℕ) < 1
  ∧ 0 < probability ⟨3, 2/5, 1, (fun _ _ => none), 1⟩ "hi" []
  ∧ perplexityFinite ⟨3, 2/5, 1, (fun _ _ => none), 1⟩ "hi" := by
  refine ⟨by norm_num, le_refl 1, Nat.zero_lt_one, ?_, ?_⟩
  · exact (C10_ngram_probability_pos_perplexity_finite ⟨3, 2/5, 1, (fun _ _ => none), 1⟩
      (by norm_num) (le_refl 1) Nat.zero_lt_one).1 "hi" []
  · exact (C10_ngram_probability_pos_perplexity_finite ⟨3, 2/5, 1, (fun _ _ => none), 1⟩
      (by norm_num) (le_refl 1) Nat.zero_lt_one).2 "hi" (by decide)

end Ngram
